import Mathlib

/-!
A shallow embedding of `src/cfgraphman/main.py`: a content-addressed index
mapping file paths to the list of artifact ids that ever shipped them,
stored as a git-like object graph (blobs, trees, commits) with one commit
per artifact addition.

Modelling conventions:
* Content-addressed objects are modelled as pure values: two persisted
  objects are "the same object" (same oid) exactly when their modelled
  values are equal.  Tree builders keep an insertion-ordered association
  list; since every reachable tree is produced through the same builder
  discipline, equality of these lists refines git object identity
  (equal lists serialize to equal bytes, hence equal oids).
* Python `str` / `bytes` become `String`; the byte-level substring test
  `needle in haystack` becomes an infix test on the character lists
  (they agree on the ASCII data the program handles).
* Operations that raise in Python (KeyError on missing descriptor
  fields, TypeError / AttributeError on structural blob-vs-tree
  conflicts in pygit2) become `Except` errors; an error aborts the
  addition with no commit created, as an uncaught exception does.
-/

/-! ### Line splitting (newline-terminated records) -/

/-- Split a character list at newline characters, Python
`"a\nb\n".split("\n")`-style but dropping the final empty fragment that a
terminating newline produces: the list of newline-terminated lines. -/
def splitTerm : List Char → List (List Char)
  | [] => []
  | c :: cs =>
    if c = '\n' then [] :: splitTerm cs
    else
      match splitTerm cs with
      | [] => [[c]]
      | l :: ls => (c :: l) :: ls

/-- The newline-terminated lines of a blob's content. -/
def contentLines (s : String) : List (List Char) :=
  splitTerm s.data

/-! ### Git objects: blobs and trees -/

mutual
/-- A git object reachable from a tree: a blob (raw bytes) or a tree
(ordered mapping from entry names to child objects). -/
inductive Entry where
  | blob (content : String)
  | tree (entries : EntryList)
  deriving DecidableEq
/-- The ordered entries of a tree object. -/
inductive EntryList where
  | nil
  | cons (name : String) (e : Entry) (rest : EntryList)
  deriving DecidableEq
end

/-- Lookup of a child by name in a tree's entries (`parent_tree[name]`,
with a missing name reported as `none` — the code's `except KeyError`). -/
def assocFind : EntryList → String → Option Entry
  | .nil, _ => none
  | .cons m x rest, n => if m = n then some x else assocFind rest n

/-- `TreeBuilder.insert`: replace the entry of an existing name in place,
or append a new entry. -/
def tbInsert : EntryList → String → Entry → EntryList
  | .nil, n, e => .cons n e .nil
  | .cons m x rest, n, e =>
    if m = n then .cons n e rest else .cons m x (tbInsert rest n e)

/-- Resolve a path (list of segments) from an object by walking tree
entries; a blob has no children, so any remaining segments fail. -/
def Entry.lookup : Entry → List String → Option Entry
  | e, [] => some e
  | .blob _, _ :: _ => none
  | .tree es, s :: rest =>
    match assocFind es s with
    | none => none
    | some e => e.lookup rest

/-! ### The path trie (`pygtrie.StringTrie`) -/

mutual
/-- A node of the path trie: `val` is true when a key ends at this node
(pygtrie stores the value `True` there), plus the children in insertion
order. -/
inductive Trie where
  | node (val : Bool) (children : TrieList)
  deriving DecidableEq
/-- Trie children in insertion order, keyed by path segment. -/
inductive TrieList where
  | nil
  | cons (name : String) (t : Trie) (rest : TrieList)
  deriving DecidableEq
end

def emptyTrie : Trie := .node false .nil

def Trie.val : Trie → Bool
  | .node v _ => v

def Trie.children : Trie → TrieList
  | .node _ cs => cs

/-- Fetch the child of a given segment, if present. -/
def childGet : TrieList → String → Option Trie
  | .nil, _ => none
  | .cons n t ts, s => if n = s then some t else childGet ts s

/-- Replace the child of an existing segment in place, otherwise append
a fresh child (dict insertion order). -/
def childPut : TrieList → String → Trie → TrieList
  | .nil, s, t => .cons s t .nil
  | .cons n u ts, s, t =>
    if n = s then .cons n t ts else .cons n u (childPut ts s t)

/-- Insert a key (as a segment list) into the trie: walk existing
children, creating empty nodes as needed, and mark the final node as
holding a value. -/
def trieInsert : Trie → List String → Trie
  | t, [] => .node true t.children
  | t, s :: rest =>
    let sub := (childGet t.children s).getD emptyTrie
    .node t.val (childPut t.children s (trieInsert sub rest))

/-- Python `str.split(sep)` for a one-character separator: every
maximal fragment between separators is kept, so the result is never
empty and empty fragments are preserved (`"".split("/") == [""]`,
`"a//b".split("/") == ["a", "", "b"]`). -/
def splitChars (sep : Char) : List Char → List (List Char)
  | [] => [[]]
  | c :: cs =>
    if c = sep then [] :: splitChars sep cs
    else
      match splitChars sep cs with
      | [] => [[c]]
      | l :: ls => (c :: l) :: ls

/-- `StringTrie` splits keys on the separator `/` (Python `str.split`). -/
def splitPath (s : String) : List String :=
  (splitChars '/' s.data).map fun l => String.mk l

/-- `pygtrie.StringTrie.fromkeys(files, value=True)`. -/
def trieFromKeys (files : List String) : Trie :=
  files.foldl (fun t f => trieInsert t (splitPath f)) emptyTrie

/-! ### The merge callback (`cb` inside `add_artifact_to_repo`) -/

/-- The ways the traversal can raise in Python / pygit2. -/
inductive MergeError where
  | treeBuilderOnBlob   -- `repo.TreeBuilder(blob)`: TypeError
  | blobHasNoChildren   -- `blob[name]`: TypeError
  | treeHasNoData       -- `tree_entry.data`: AttributeError
  deriving DecidableEq

/-- The byte-level membership test `needle in haystack` used at the leaf. -/
def bytesContains (haystack needle : String) : Bool :=
  decide (needle.data <:+: haystack.data)

/-- Leaf branch of `cb` (`is_file` true): `none` is the sentinel "path
unchanged, do not insert"; otherwise the new blob. -/
def mergeFile (artifact_id : String) : Option Entry → Except MergeError (Option Entry)
  | none => .ok (some (.blob (artifact_id ++ "\n")))
  | some (.blob old_data) =>
    if bytesContains old_data (artifact_id ++ "\n") then .ok none
    else .ok (some (.blob (old_data ++ artifact_id ++ "\n")))
  | some (.tree _) => .error .treeHasNoData

/-- `tree_map.get(path[:-1])` followed by `parent_tree[path[-1]]`: the
child's pre-addition entry, looked up in the parent's pre-addition
entry. -/
def childLookup : Option Entry → String → Except MergeError (Option Entry)
  | none, _ => .ok none
  | some (.tree es), n => .ok (assocFind es n)
  | some (.blob _), _ => .error .blobHasNoChildren

mutual
/-- One call of `cb` at a non-root trie node whose pre-addition entry is
`old`.  A node carrying a value takes the `is_file` branch (its children,
if any, are never consumed).  A directory node seeds a tree builder from
its old entry, merges the children, and always yields the rebuilt tree. -/
def mergeNode (artifact_id : String) (old : Option Entry) : Trie → Except MergeError (Option Entry)
  | .node true _ => mergeFile artifact_id old
  | .node false cs => do
    let base ← match old with
      | none => .ok EntryList.nil
      | some (.tree es) => .ok es
      | some (.blob _) => .error MergeError.treeBuilderOnBlob
    let es ← mergeChildren artifact_id old cs base
    .ok (some (.tree es))
/-- The `for child in children` loop: each child result that is not the
`None` sentinel is inserted into the builder. -/
def mergeChildren (artifact_id : String) (old : Option Entry) : TrieList → EntryList → Except MergeError EntryList
  | .nil, acc => .ok acc
  | .cons name t ts, acc => do
    let childOld ← childLookup old name
    let r ← mergeNode artifact_id childOld t
    let acc' := match r with
      | none => acc
      | some e => tbInsert acc name e
    mergeChildren artifact_id old ts acc'
end

/-- The root call of the traversal: `tree_map[()]` is the previous
commit's tree, and the root of a trie built by `fromkeys` never carries a
value (an empty key becomes a child with an empty segment name), so the
directory branch runs and its written tree is returned. -/
def mergeRoot (artifact_id : String) (prevTree : Entry) (t : Trie) : Except MergeError Entry := do
  match ← mergeNode artifact_id (some prevTree) t with
  | some e => .ok e
  | none => .ok prevTree

/-! ### Repository state, descriptors, additions -/

/-- `info["index"]`: the identity fields of a descriptor, each possibly
missing (Python raises KeyError on access). -/
structure IndexInfo where
  subdir : Option String
  name : Option String
  version : Option String
  build : Option String
  timestamp : Option Int
  deriving DecidableEq

/-- An artifact descriptor as loaded from json. -/
structure Info where
  index : Option IndexInfo
  files : List String
  deriving DecidableEq

inductive AddError where
  | keyError (field : String)
  | mergeError (e : MergeError)
  deriving DecidableEq

/-- `calendar.timegm((2018, 1, 1, 0, 0, 0, 0, 1, 0))`. -/
def OLD_TIME : Int := 1514764800

/-- `info_to_artifact_id`: raises KeyError when a field is absent. -/
def info_to_artifact_id (info : Info) : Except AddError String := do
  let idx ← match info.index with
    | none => .error (AddError.keyError "index")
    | some idx => .ok idx
  let s ← match idx.subdir with
    | none => .error (AddError.keyError "subdir")
    | some v => .ok v
  let n ← match idx.name with
    | none => .error (AddError.keyError "name")
    | some v => .ok v
  let v ← match idx.version with
    | none => .error (AddError.keyError "version")
    | some v => .ok v
  let b ← match idx.build with
    | none => .error (AddError.keyError "build")
    | some v => .ok v
  .ok (s ++ "/" ++ n ++ "-" ++ v ++ "-" ++ b)

mutual
/-- A commit: `create_commit` takes the parent list, the tree, the
message and the author time. -/
inductive Commit where
  | mk (parents : CommitList) (tree : Entry) (message : String) (authorTime : Int)
  deriving DecidableEq
inductive CommitList where
  | nil
  | cons (c : Commit) (rest : CommitList)
  deriving DecidableEq
end

def Commit.parents : Commit → CommitList
  | .mk ps _ _ _ => ps

def Commit.tree : Commit → Entry
  | .mk _ t _ _ => t

def Commit.message : Commit → String
  | .mk _ _ m _ => m

/-- The number of commits reached by walking parent references from a
commit (following first parents, as a linear history walk does). -/
def Commit.histLen : Commit → Nat
  | .mk .nil _ _ _ => 1
  | .mk (.cons p _) _ _ _ => p.histLen + 1

/-- The repository's mutable state: the head reference. -/
structure RepoState where
  head : Commit
  deriving DecidableEq

/-- `init_repo` on a fresh path: an initial commit with no parents over
an empty tree (`repo.TreeBuilder().write()`).  The signature carries the
wall-clock time, which no claim depends on; it is modelled as 0. -/
def init_repo : RepoState :=
  ⟨.mk .nil (.tree .nil) "Initial commit" 0⟩

/-- The descriptor timestamp in seconds: `info["index"]["timestamp"] /
1000.0` with KeyError falling back to `OLD_TIME`.  (`int()` of the
non-negative millisecond values the program sees is division by 1000.) -/
def infoTimestamp (info : Info) : Int :=
  match info.index with
  | none => OLD_TIME
  | some idx =>
    match idx.timestamp with
    | none => OLD_TIME
    | some t => t / 1000

/-- `add_artifact_to_repo`: build the artifact id (KeyError aborts before
anything is written), build the trie of the artifact's files, merge it
against the head commit's tree, and commit the result with the
pre-addition head as the single parent. -/
def add_artifact_to_repo (st : RepoState) (info : Info) : Except AddError RepoState := do
  let artifact_id ← info_to_artifact_id info
  let timestamp := infoTimestamp info
  let current_commit := st.head
  let trie := trieFromKeys info.files
  let current_tree := current_commit.tree
  let root ← match mergeRoot artifact_id current_tree trie with
    | .ok r => .ok r
    | .error e => .error (AddError.mergeError e)
  .ok ⟨.mk (.cons current_commit .nil) root ("Adding " ++ artifact_id) timestamp⟩

/-- The loop in `cli`: process artifacts in order; an uncaught exception
terminates the run, leaving the repository at the last completed
addition and the remaining artifacts unprocessed. -/
def processArtifacts (st : RepoState) : List Info → RepoState × Option AddError
  | [] => (st, none)
  | i :: rest =>
    match add_artifact_to_repo st i with
    | .ok st' => processArtifacts st' rest
    | .error e => (st, some e)

/-- Repository states reachable from a fresh repository by a sequence of
successful additions, together with the descriptors processed. -/
inductive ReachableVia : List Info → RepoState → Prop where
  | init : ReachableVia [] init_repo
  | step {l st info st'} : ReachableVia l st →
      add_artifact_to_repo st info = .ok st' → ReachableVia (l ++ [info]) st'

/-- Strictly linear histories: no parent, or exactly one linear parent. -/
inductive LinearChain : Commit → Prop where
  | root {t m a} : LinearChain (.mk .nil t m a)
  | step {p t m a} : LinearChain p → LinearChain (.mk (.cons p .nil) t m a)

/-! ### Derived notions used to state and prove the claims -/

/-- Resolve a path from an optional entry. -/
def lookupOpt : Option Entry → List String → Option Entry
  | none, _ => none
  | some e, p => e.lookup p

/-- Combine a child's merge result with its pre-addition entry: the
`None` sentinel means the entry already present is kept. -/
def resolved : Option Entry → Option Entry → Option Entry
  | some e, _ => some e
  | none, old => old

mutual
/-- Does any node of this subtree (itself included) hold a value? -/
def anyVal : Trie → Bool
  | .node v cs => v || anyValL cs
def anyValL : TrieList → Bool
  | .nil => false
  | .cons _ t ts => anyVal t || anyValL ts
end

mutual
/-- Well-formedness of tries built by `fromkeys`: children have distinct
segment names and every child's subtree holds at least one key. -/
def TrieWF : Trie → Prop
  | .node _ cs => TrieListWF cs
def TrieListWF : TrieList → Prop
  | .nil => True
  | .cons n t ts => childGet ts n = none ∧ anyVal t = true ∧ TrieWF t ∧ TrieListWF ts
end

/-- A key ends exactly at this path of the trie. -/
def trieHasKey : Trie → List String → Bool
  | t, [] => t.val
  | t, s :: rest =>
    match childGet t.children s with
    | none => false
    | some t' => trieHasKey t' rest

/-- Some key of the trie lies at or below this path. -/
def keyBelow : Trie → List String → Bool
  | t, [] => anyVal t
  | t, s :: rest =>
    match childGet t.children s with
    | none => false
    | some t' => keyBelow t' rest

/-- The traversal reaches this path and takes the `is_file` branch
there: a value is stored at the path and no proper ancestor on the way
holds a value (a valued ancestor would be treated as a file and its
subtree never visited). -/
def procFile : Trie → List String → Bool
  | t, [] => t.val
  | t, s :: rest =>
    !t.val &&
      match childGet t.children s with
      | none => false
      | some t' => procFile t' rest

/-- The traversal reaches this path and takes the directory branch
there. -/
def procDir : Trie → List String → Bool
  | t, [] => !t.val
  | t, s :: rest =>
    !t.val &&
      match childGet t.children s with
      | none => false
      | some t' => procDir t' rest

/-- A well-formed blob payload: a deduplicated sequence of
newline-terminated, newline-free records. -/
def WFBlob (c : String) : Prop :=
  ∃ ls : List (List Char), (∀ l ∈ ls, '\n' ∉ l) ∧ ls.Nodup ∧
    c.data = (ls.map (fun l => l ++ ['\n'])).flatten

/-- The conclusion of the (amended) completeness claim: the object is a
blob whose content contains `aid` followed by a newline as a substring. -/
def blobContaining (o : Option Entry) (aid : String) : Prop :=
  ∃ c, o = some (.blob c) ∧ (aid ++ "\n").data <:+: c.data

/-- `c` lists `a1` on an earlier newline-terminated line than `a2`. -/
def listsBefore (c : String) (a1 a2 : String) : Prop :=
  ∃ i j, i < j ∧ (contentLines c).get? i = some a1.data ∧
    (contentLines c).get? j = some a2.data


/-- The body of the `for child in children` loop for one child result:
the `None` sentinel is skipped, anything else inserted. -/
def applyIns (acc : EntryList) (name : String) : Option Entry → EntryList
  | none => acc
  | some e => tbInsert acc name e

/-- A descriptor whose artifact id (when derivable) contains no newline,
as the data model requires of `ArtifactId`. -/
def nlFreeId (info : Info) : Prop :=
  ∀ aid, info_to_artifact_id info = .ok aid → '\n' ∉ aid.data

/-! ### Concrete descriptors (from the specification's scenario and the
edge cases) -/

def descFoo : Info :=
  ⟨some ⟨some "linux-64", some "foo", some "1.0", some "0", some 1700000000000⟩,
    ["bin/foo", "lib/libfoo.so"]⟩

def descFoo2 : Info :=
  ⟨some ⟨some "linux-64", some "foo", some "1.0", some "1", none⟩, ["bin/foo"]⟩

/-- An artifact id `subdir/name-1-0` … -/
def descA1 : Info := ⟨some ⟨some "subdir", some "name", some "1", some "0", none⟩, ["p"]⟩

/-- … and an artifact id `r/name-1-0` that is a strict suffix of it. -/
def descA2 : Info := ⟨some ⟨some "r", some "name", some "1", some "0", none⟩, ["p"]⟩

/-- A descriptor with the required identity field `name` missing. -/
def descBad : Info := ⟨some ⟨some "linux-64", none, some "1.0", some "0", none⟩, ["bin/foo"]⟩

def stFoo : RepoState := ((add_artifact_to_repo init_repo descFoo).toOption).getD init_repo

def stFoo2 : RepoState := ((add_artifact_to_repo stFoo descFoo2).toOption).getD init_repo

def stA1 : RepoState := ((add_artifact_to_repo init_repo descA1).toOption).getD init_repo

def stA2 : RepoState := ((add_artifact_to_repo stA1 descA2).toOption).getD init_repo

def descEmpty : Info := ⟨some ⟨some "linux-64", some "noarch", some "2.0", some "0", none⟩, []⟩


/-! ### Induction principles for the mutual inductives -/

def EntryList.inductionOn {motive : EntryList → Prop} (hnil : motive .nil)
    (hcons : ∀ n e rest, motive rest → motive (.cons n e rest)) : ∀ l, motive l
  | .nil => hnil
  | .cons n e rest => hcons n e rest (EntryList.inductionOn hnil hcons rest)

def TrieList.inductionOn {motive : TrieList → Prop} (hnil : motive .nil)
    (hcons : ∀ n t rest, motive rest → motive (.cons n t rest)) : ∀ l, motive l
  | .nil => hnil
  | .cons n t rest => hcons n t rest (TrieList.inductionOn hnil hcons rest)

def CommitList.inductionOn {motive : CommitList → Prop} (hnil : motive .nil)
    (hcons : ∀ c rest, motive rest → motive (.cons c rest)) : ∀ l, motive l
  | .nil => hnil
  | .cons c rest => hcons c rest (CommitList.inductionOn hnil hcons rest)

mutual
def Trie.rec2 (mt : Trie → Prop) (ml : TrieList → Prop)
    (hnode : ∀ v cs, ml cs → mt (.node v cs))
    (hnil : ml .nil)
    (hcons : ∀ n t ts, mt t → ml ts → ml (.cons n t ts)) : ∀ t, mt t
  | .node v cs => hnode v cs (TrieList.rec2 mt ml hnode hnil hcons cs)
def TrieList.rec2 (mt : Trie → Prop) (ml : TrieList → Prop)
    (hnode : ∀ v cs, ml cs → mt (.node v cs))
    (hnil : ml .nil)
    (hcons : ∀ n t ts, mt t → ml ts → ml (.cons n t ts)) : ∀ l, ml l
  | .nil => hnil
  | .cons n t ts =>
    hcons n t ts (Trie.rec2 mt ml hnode hnil hcons t) (TrieList.rec2 mt ml hnode hnil hcons ts)
end

/-- Induction over a trie where the hypothesis provides the inductive
property for every child reachable through `childGet`. -/
def Trie.childInduction {motive : Trie → Prop}
    (h : ∀ v cs, (∀ s t', childGet cs s = some t' → motive t') → motive (.node v cs)) :
    ∀ t, motive t :=
  Trie.rec2 motive (fun cs => ∀ s t', childGet cs s = some t' → motive t')
    (fun v cs hcs => h v cs hcs)
    (fun s t' hget => by simp [childGet] at hget)
    (fun n t ts ht hts s t' hget => by
      by_cases hn : n = s
      · subst hn
        have ht' : t = t' := by simpa [childGet] using hget
        exact ht' ▸ ht
      · simp only [childGet, if_neg hn] at hget
        exact hts s t' hget)

theorem lookup_nil (e : Entry) : Entry.lookup e [] = some e := by
  cases e <;> rfl

/-! ### Basic lemmas: line splitting -/

theorem splitTerm_append (l : List Char) (hl : '\n' ∉ l) (cs : List Char) :
    splitTerm (l ++ '\n' :: cs) = l :: splitTerm cs := by
  induction l with
  | nil => simp [splitTerm]
  | cons c l ih =>
    have hc : c ≠ '\n' := by intro h; exact hl (by simp [h])
    have hl' : '\n' ∉ l := fun h => hl (by simp [h])
    simp only [List.cons_append, splitTerm, if_neg hc, List.append_eq, ih hl']

theorem contentLines_wf (c : String) (ls : List (List Char))
    (hnl : ∀ l ∈ ls, '\n' ∉ l)
    (hc : c.data = (ls.map (fun l => l ++ ['\n'])).flatten) :
    contentLines c = ls := by
  unfold contentLines
  rw [hc]
  clear hc
  induction ls with
  | nil => simp [splitTerm]
  | cons l ls ih =>
    have hl : '\n' ∉ l := hnl l (by simp)
    have hrest : ∀ x ∈ ls, '\n' ∉ x := fun x hx => hnl x (by simp [hx])
    simp only [List.map_cons, List.flatten_cons, List.append_assoc, List.singleton_append]
    rw [splitTerm_append l hl, ih hrest]

/-- Every line of a well-formed blob occurs, newline-terminated, as a
substring of the blob's bytes. -/
theorem line_infix (c : String) (ls : List (List Char)) (l : List Char)
    (hc : c.data = (ls.map (fun l => l ++ ['\n'])).flatten) (hmem : l ∈ ls) :
    (l ++ ['\n']) <:+: c.data := by
  rw [hc]
  have : (l ++ ['\n']) ∈ ls.map (fun l => l ++ ['\n']) := List.mem_map_of_mem _ hmem
  exact List.infix_of_mem_flatten this

/-! ### Basic lemmas: tree entry lists -/

theorem assocFind_tbInsert (l : EntryList) (n : String) (e : Entry) (m : String) :
    assocFind (tbInsert l n e) m = if n = m then some e else assocFind l m := by
  induction l using EntryList.inductionOn with
  | hnil => by_cases h : n = m <;> simp [tbInsert, assocFind, h]
  | hcons k x rest ih =>
    by_cases hk : k = n
    · subst hk
      by_cases h : k = m <;> simp [tbInsert, assocFind, h]
    · by_cases h : n = m
      · subst h
        simp [tbInsert, hk, assocFind, ih]
      · simp only [tbInsert, if_neg hk, assocFind]
        by_cases hkm : k = m <;> simp [hkm, ih, h]

theorem tbInsert_same (l : EntryList) (n : String) (e : Entry)
    (h : assocFind l n = some e) : tbInsert l n e = l := by
  induction l using EntryList.inductionOn with
  | hnil => simp [assocFind] at h
  | hcons k x rest ih =>
    by_cases hk : k = n
    · subst hk
      have hx : x = e := by simpa [assocFind] using h
      simp [tbInsert, hx]
    · simp only [assocFind, if_neg hk] at h
      simp [tbInsert, hk, ih h]

/-! ### Basic lemmas: trie children and insertion -/

theorem childGet_childPut (cs : TrieList) (n : String) (t : Trie) (m : String) :
    childGet (childPut cs n t) m = if n = m then some t else childGet cs m := by
  induction cs using TrieList.inductionOn with
  | hnil => by_cases h : n = m <;> simp [childPut, childGet, h]
  | hcons k u rest ih =>
    by_cases hk : k = n
    · subst hk
      by_cases h : k = m <;> simp [childPut, childGet, h]
    · by_cases h : n = m
      · subst h
        simp [childPut, hk, childGet, ih]
      · simp only [childPut, if_neg hk, childGet]
        by_cases hkm : k = m <;> simp [hkm, ih, h]

theorem anyValL_childPut (cs : TrieList) (n : String) (t : Trie)
    (h : anyVal t = true) : anyValL (childPut cs n t) = true := by
  induction cs using TrieList.inductionOn with
  | hnil => simp [childPut, anyValL, h]
  | hcons k u rest ih =>
    by_cases hk : k = n
    · subst hk
      simp [childPut, anyValL, h]
    · simp [childPut, hk, anyValL, ih]

theorem anyVal_trieInsert (t : Trie) (p : List String) :
    anyVal (trieInsert t p) = true := by
  cases p with
  | nil =>
    cases t with
    | node v cs => simp [trieInsert, anyVal, Trie.children]
  | cons s rest =>
    cases t with
    | node v cs =>
      have h := anyValL_childPut cs s
        (trieInsert ((childGet cs s).getD emptyTrie) rest) (anyVal_trieInsert _ rest)
      simp [trieInsert, anyVal, Trie.children, Trie.val, h]

theorem childGet_wf (cs : TrieList) (h : TrieListWF cs) (n : String)
    (t : Trie) (hget : childGet cs n = some t) : TrieWF t ∧ anyVal t = true := by
  induction cs using TrieList.inductionOn with
  | hnil => simp [childGet] at hget
  | hcons k u rest ih =>
    obtain ⟨-, hav, hwf, hrest⟩ := h
    by_cases hk : k = n
    · subst hk
      have : u = t := by simpa [childGet] using hget
      exact ⟨this ▸ hwf, this ▸ hav⟩
    · simp only [childGet, if_neg hk] at hget
      exact ih hrest hget

theorem trieListWF_childPut (cs : TrieList) (h : TrieListWF cs) (n : String)
    (t : Trie) (hwf : TrieWF t) (hav : anyVal t = true) :
    TrieListWF (childPut cs n t) := by
  induction cs using TrieList.inductionOn with
  | hnil => exact ⟨rfl, hav, hwf, trivial⟩
  | hcons k u rest ih =>
    obtain ⟨hnd, hav', hwf', hrest⟩ := h
    by_cases hk : k = n
    · subst hk
      simp only [childPut, if_pos rfl]
      exact ⟨hnd, hav, hwf, hrest⟩
    · simp only [childPut, if_neg hk]
      refine ⟨?_, hav', hwf', ih hrest⟩
      rw [childGet_childPut]
      simp [Ne.symm hk, hnd]

theorem trieWF_trieInsert (t : Trie) (h : TrieWF t) (p : List String) :
    TrieWF (trieInsert t p) := by
  induction p generalizing t with
  | nil => cases t with | node v cs => exact h
  | cons s rest ih =>
    cases t with
    | node v cs =>
      have hsub : TrieWF ((childGet cs s).getD emptyTrie) := by
        cases hg : childGet cs s with
        | none => simp [emptyTrie, TrieWF, TrieListWF]
        | some u => simpa using (childGet_wf cs h s u hg).1
      have := trieListWF_childPut cs h s (trieInsert ((childGet cs s).getD emptyTrie) rest)
        (ih _ hsub) (anyVal_trieInsert _ _)
      simpa [trieInsert, TrieWF, Trie.children] using this

theorem trieWF_fromKeys (files : List String) : TrieWF (trieFromKeys files) := by
  have : ∀ t, TrieWF t → TrieWF (files.foldl (fun t f => trieInsert t (splitPath f)) t) := by
    induction files with
    | nil => intro t h; exact h
    | cons f fs ih =>
      intro t h
      exact ih _ (trieWF_trieInsert t h _)
  exact this emptyTrie (by simp [emptyTrie, TrieWF, TrieListWF])

theorem trieHasKey_empty (q : List String) : trieHasKey emptyTrie q = false := by
  cases q with
  | nil => rfl
  | cons s qr => simp [trieHasKey, emptyTrie, Trie.children, childGet]

theorem keyBelow_empty (q : List String) : keyBelow emptyTrie q = false := by
  cases q with
  | nil => simp [keyBelow, emptyTrie, anyVal, anyValL]
  | cons s qr => simp [keyBelow, emptyTrie, Trie.children, childGet]

theorem trieHasKey_trieInsert (q : List String) : ∀ (t : Trie) (k : List String),
    trieHasKey (trieInsert t k) q = if q = k then true else trieHasKey t q := by
  induction q with
  | nil =>
    intro t k
    cases k with
    | nil => simp [trieInsert, trieHasKey, Trie.val]
    | cons ks kr =>
      cases t with
      | node v cs => simp [trieInsert, trieHasKey, Trie.val, Trie.children]
  | cons s qr ih =>
    intro t k
    cases t with
    | node v cs =>
      cases k with
      | nil =>
        simp only [trieInsert, trieHasKey, Trie.children]
        simp
      | cons ks kr =>
        simp only [trieInsert, trieHasKey, Trie.children, Trie.val]
        rw [childGet_childPut]
        by_cases hs : ks = s
        · subst hs
          rw [if_pos rfl]
          simp only [ih]
          by_cases hq : qr = kr
          · subst hq
            simp
          · have hne : ks :: qr ≠ ks :: kr := by simp [hq]
            simp only [if_neg hq, if_neg hne]
            cases hg : childGet cs ks with
            | none => simp [hg, Option.getD, trieHasKey_empty]
            | some sub => simp [hg, Option.getD]
        · have hne : s :: qr ≠ ks :: kr := by
            intro h
            exact hs (by injection h with h1 h2; exact h1.symm)
          simp [hs, hne]
  
theorem keyBelow_trieInsert (q : List String) : ∀ (t : Trie) (k : List String),
    keyBelow (trieInsert t k) q = (decide (q <+: k) || keyBelow t q) := by
  induction q with
  | nil =>
    intro t k
    simp [keyBelow, anyVal_trieInsert, List.nil_prefix]
  | cons s qr ih =>
    intro t k
    cases t with
    | node v cs =>
      cases k with
      | nil =>
        simp only [trieInsert, keyBelow, Trie.children]
        have : ¬ (s :: qr <+: ([] : List String)) := by
          intro h
          simpa using h.length_le
        simp [this]
      | cons ks kr =>
        simp only [trieInsert, keyBelow, Trie.children]
        rw [childGet_childPut]
        by_cases hs : ks = s
        · subst hs
          rw [if_pos rfl]
          simp only [ih]
          have hpref : (ks :: qr <+: ks :: kr) ↔ (qr <+: kr) := by
            simp [List.cons_prefix_cons]
          cases hg : childGet cs ks with
          | none =>
            simp only [hg, Option.getD]
            simp [keyBelow_empty, hpref]
          | some sub =>
            simp only [hg, Option.getD]
            simp [hpref]
        · have hne : ¬ (s :: qr <+: ks :: kr) := by
            intro h
            rw [List.cons_prefix_cons] at h
            exact hs h.1.symm
          simp [hs, hne]

theorem trieHasKey_fromKeys (files : List String) (q : List String) :
    trieHasKey (trieFromKeys files) q =
      files.any fun f => decide (splitPath f = q) := by
  have : ∀ t, trieHasKey (files.foldl (fun t f => trieInsert t (splitPath f)) t) q =
      (trieHasKey t q || files.any fun f => decide (splitPath f = q)) := by
    induction files with
    | nil => intro t; simp
    | cons f fs ih =>
      intro t
      simp only [List.foldl_cons, List.any_cons]
      rw [ih, trieHasKey_trieInsert]
      by_cases h : q = splitPath f
      · simp [h]
      · have h2 : splitPath f ≠ q := fun hh => h hh.symm
        simp [h, h2]
  rw [trieFromKeys, this, trieHasKey_empty]
  simp

theorem keyBelow_fromKeys (files : List String) (q : List String) :
    keyBelow (trieFromKeys files) q =
      files.any fun f => decide (q <+: splitPath f) := by
  have : ∀ t, keyBelow (files.foldl (fun t f => trieInsert t (splitPath f)) t) q =
      (keyBelow t q || files.any fun f => decide (q <+: splitPath f)) := by
    induction files with
    | nil => intro t; simp
    | cons f fs ih =>
      intro t
      simp only [List.foldl_cons, List.any_cons]
      rw [ih, keyBelow_trieInsert]
      by_cases h : q <+: splitPath f <;> simp [h, Bool.or_comm, Bool.or_assoc, Bool.or_left_comm]
  rw [trieFromKeys, this, keyBelow_empty]
  simp

theorem procFile_of_keys (p : List String) : ∀ (t : Trie),
    trieHasKey t p = true →
    (∀ q, q <+: p → q ≠ p → trieHasKey t q = false) →
    procFile t p = true := by
  induction p with
  | nil => intro t h _; exact h
  | cons s pr ih =>
    intro t hkey hpre
    cases t with
    | node v cs =>
      have hval : v = false := by
        have := hpre [] List.nil_prefix (by simp)
        simpa [trieHasKey, Trie.val] using this
      subst hval
      simp only [trieHasKey, Trie.children] at hkey
      cases hg : childGet cs s with
      | none => simp [hg] at hkey
      | some t' =>
        rw [hg] at hkey
        have hpre' : ∀ q, q <+: pr → q ≠ pr → trieHasKey t' q = false := by
          intro q hq hne
          have := hpre (s :: q) (by simpa [List.cons_prefix_cons] using hq) (by simp [hne])
          simpa [trieHasKey, Trie.children, hg] using this
        simp [procFile, Trie.val, Trie.children, hg, ih t' hkey hpre']

/-! ### Characterizing the merge -/

theorem lookup_tree_cons (es : EntryList) (s : String) (rest : List String) :
    Entry.lookup (.tree es) (s :: rest) = lookupOpt (assocFind es s) rest := by
  cases h : assocFind es s <;> simp [Entry.lookup, h, lookupOpt]

theorem mergeChildren_nil (aid : String) (old : Option Entry) (acc : EntryList) :
    mergeChildren aid old .nil acc = .ok acc := rfl

theorem mergeChildren_cons (aid : String) (old : Option Entry) (name : String)
    (t : Trie) (ts : TrieList) (acc : EntryList) (co : Option Entry) (r : Option Entry)
    (hco : childLookup old name = .ok co) (hr : mergeNode aid co t = .ok r) :
    mergeChildren aid old (.cons name t ts) acc =
      mergeChildren aid old ts (applyIns acc name r) := by
  show (do
    let childOld ← childLookup old name
    let r ← mergeNode aid childOld t
    mergeChildren aid old ts
      (match r with | none => acc | some e => tbInsert acc name e)) =
    mergeChildren aid old ts (applyIns acc name r)
  rw [hco]
  show (do
    let r ← mergeNode aid co t
    mergeChildren aid old ts
      (match r with | none => acc | some e => tbInsert acc name e)) =
    mergeChildren aid old ts (applyIns acc name r)
  rw [hr]
  cases r <;> rfl

theorem mergeChildren_cons_inv (aid : String) (old : Option Entry) (name : String)
    (t : Trie) (ts : TrieList) (acc es : EntryList)
    (h : mergeChildren aid old (.cons name t ts) acc = .ok es) :
    ∃ co r, childLookup old name = .ok co ∧ mergeNode aid co t = .ok r ∧
      mergeChildren aid old ts (applyIns acc name r) = .ok es := by
  cases hco : childLookup old name with
  | error e =>
    rw [show mergeChildren aid old (.cons name t ts) acc = (do
      let childOld ← childLookup old name
      let r ← mergeNode aid childOld t
      mergeChildren aid old ts
        (match r with | none => acc | some e => tbInsert acc name e)) from rfl, hco] at h
    exact absurd (show Except.error e = Except.ok es from h) (by simp)
  | ok co =>
    cases hr : mergeNode aid co t with
    | error e =>
      rw [show mergeChildren aid old (.cons name t ts) acc = (do
        let childOld ← childLookup old name
        let r ← mergeNode aid childOld t
        mergeChildren aid old ts
          (match r with | none => acc | some e => tbInsert acc name e)) from rfl, hco] at h
      replace h : (do
        let r ← mergeNode aid co t
        mergeChildren aid old ts
          (match r with | none => acc | some e => tbInsert acc name e)) = Except.ok es := h
      rw [hr] at h
      exact absurd (show Except.error e = Except.ok es from h) (by simp)
    | ok r =>
      refine ⟨co, r, rfl, hr, ?_⟩
      rw [mergeChildren_cons aid old name t ts acc co r hco hr] at h
      exact h

theorem mergeChildren_notin (aid : String) (old : Option Entry) :
    ∀ (cs : TrieList), ∀ (acc es : EntryList),
      mergeChildren aid old cs acc = .ok es → ∀ n, childGet cs n = none →
        assocFind es n = assocFind acc n := by
  intro cs
  induction cs using TrieList.inductionOn with
  | hnil =>
    intro acc es h n _
    have : acc = es := by simpa [mergeChildren] using h
    rw [this]
  | hcons name t ts ih =>
    intro acc es h n hget
    obtain ⟨co, r, hco, hr, h2⟩ := mergeChildren_cons_inv aid old name t ts acc es h
    have hne : name ≠ n := by
      intro hcontra
      simp [childGet, hcontra] at hget
    have hget2 : childGet ts n = none := by
      simpa [childGet, hne] using hget
    rw [ih _ es h2 n hget2]
    cases r with
    | none => rfl
    | some e => simp [applyIns, assocFind_tbInsert, hne]

theorem mergeChildren_in (aid : String) (old : Option Entry) :
    ∀ (cs : TrieList), ∀ (acc es : EntryList), TrieListWF cs →
      mergeChildren aid old cs acc = .ok es → ∀ n t2, childGet cs n = some t2 →
        ∃ co r, childLookup old n = .ok co ∧ mergeNode aid co t2 = .ok r ∧
          assocFind es n = resolved r (assocFind acc n) := by
  intro cs
  induction cs using TrieList.inductionOn with
  | hnil =>
    intro acc es _ _ n t2 hget
    simp [childGet] at hget
  | hcons name t ts ih =>
    intro acc es hwf h n t2 hget
    obtain ⟨hnd, -, -, hwfR⟩ := hwf
    obtain ⟨co, r, hco, hr, h2⟩ := mergeChildren_cons_inv aid old name t ts acc es h
    by_cases hne : name = n
    · subst hne
      have ht : t = t2 := by simpa [childGet] using hget
      subst ht
      refine ⟨co, r, hco, hr, ?_⟩
      rw [mergeChildren_notin aid old ts _ es h2 name hnd]
      cases r with
      | none => rfl
      | some e => simp [applyIns, assocFind_tbInsert, resolved]
    · have hget2 : childGet ts n = some t2 := by
        simpa [childGet, hne] using hget
      obtain ⟨co2, r2, hco2, hr2, heq⟩ := ih _ es hwfR h2 n t2 hget2
      refine ⟨co2, r2, hco2, hr2, ?_⟩
      rw [heq]
      cases r with
      | none => rfl
      | some e => simp [applyIns, assocFind_tbInsert, hne]

/-- Inversion of a successful directory-branch merge: the pre-addition
entry is absent or a tree, the builder is seeded accordingly, and the
rebuilt tree is always returned (never the sentinel). -/
theorem mergeNode_dir_ok (aid : String) (old : Option Entry) (cs : TrieList) (r : Option Entry)
    (h : mergeNode aid old (.node false cs) = .ok r) :
    ∃ base es, ((old = none ∧ base = .nil) ∨ (∃ es0, old = some (.tree es0) ∧ base = es0)) ∧
      mergeChildren aid old cs base = .ok es ∧ r = some (.tree es) := by
  cases old with
  | none =>
    replace h : (do
      let es ← mergeChildren aid none cs EntryList.nil
      Except.ok (some (Entry.tree es)) : Except MergeError (Option Entry)) = .ok r := h
    cases hm : mergeChildren aid none cs EntryList.nil with
    | error e =>
      rw [hm] at h
      exact absurd (show Except.error e = Except.ok r from h) (by simp)
    | ok es =>
      rw [hm] at h
      replace h : Except.ok (some (Entry.tree es)) = Except.ok r := h
      injection h with h2
      exact ⟨.nil, es, .inl ⟨rfl, rfl⟩, hm, h2.symm⟩
  | some e0 =>
    cases e0 with
    | blob c =>
      exact absurd (show (Except.error MergeError.treeBuilderOnBlob :
        Except MergeError (Option Entry)) = .ok r from h) (by simp)
    | tree es0 =>
      replace h : (do
        let es ← mergeChildren aid (some (.tree es0)) cs es0
        Except.ok (some (Entry.tree es)) : Except MergeError (Option Entry)) = .ok r := h
      cases hm : mergeChildren aid (some (.tree es0)) cs es0 with
      | error e =>
        rw [hm] at h
        exact absurd (show Except.error e = Except.ok r from h) (by simp)
      | ok es =>
        rw [hm] at h
        replace h : Except.ok (some (Entry.tree es)) = Except.ok r := h
        injection h with h2
        exact ⟨es0, es, .inr ⟨es0, rfl, rfl⟩, hm, h2.symm⟩

/-- The merged child's pre-addition entry agrees with the seeded
builder's entry for its name. -/
theorem childLookup_base (old : Option Entry) (base : EntryList)
    (hbase : (old = none ∧ base = .nil) ∨ (∃ es0, old = some (.tree es0) ∧ base = es0))
    (n : String) : childLookup old n = .ok (assocFind base n) := by
  rcases hbase with ⟨h1, h2⟩ | ⟨es0, h1, h2⟩ <;> subst h1 <;> subst h2 <;>
    simp [childLookup, assocFind]

theorem lookupOpt_old_cons (old : Option Entry) (base : EntryList)
    (hbase : (old = none ∧ base = .nil) ∨ (∃ es0, old = some (.tree es0) ∧ base = es0))
    (s : String) (rest : List String) :
    lookupOpt old (s :: rest) = lookupOpt (assocFind base s) rest := by
  rcases hbase with ⟨h1, h2⟩ | ⟨es0, h1, h2⟩ <;> subst h1 <;> subst h2
  · rfl
  · simp [lookupOpt, lookup_tree_cons]

/-- Unfold a successful `is_file` merge at a blob. -/
theorem mergeFile_blob (aid : String) (c : String) :
    mergeFile aid (some (.blob c)) =
      if bytesContains c (aid ++ "\n") = true then Except.ok none
      else Except.ok (some (.blob (c ++ aid ++ "\n"))) := by
  rw [mergeFile]

/-- After a successful merge, the entry at any path that the traversal
processed as a file is a blob: created fresh as `aid ++ "\n"` when the
path was absent, kept unchanged when the substring check fired, or the
old content with `aid ++ "\n"` appended otherwise. -/
theorem merge_file_path (aid : String) :
    ∀ (p : List String) (t : Trie) (old r : Option Entry),
      TrieWF t → mergeNode aid old t = .ok r → procFile t p = true →
      (lookupOpt old p = none ∧
        lookupOpt (resolved r old) p = some (.blob (aid ++ "\n"))) ∨
      (∃ c, lookupOpt old p = some (.blob c) ∧
        ((bytesContains c (aid ++ "\n") = true ∧
            lookupOpt (resolved r old) p = some (.blob c)) ∨
         (bytesContains c (aid ++ "\n") = false ∧
            lookupOpt (resolved r old) p = some (.blob (c ++ aid ++ "\n"))))) := by
  intro p
  induction p with
  | nil =>
    intro t old r hwf hm hp
    cases t with
    | node v cs =>
      have hv : v = true := by simpa [procFile, Trie.val] using hp
      subst hv
      replace hm : mergeFile aid old = .ok r := hm
      cases old with
      | none =>
        replace hm : Except.ok (some (Entry.blob (aid ++ "\n"))) = Except.ok r := hm
        injection hm with hm2
        left
        refine ⟨rfl, ?_⟩
        rw [← hm2]
        rfl
      | some e0 =>
        cases e0 with
        | blob c =>
          right
          refine ⟨c, rfl, ?_⟩
          rw [mergeFile_blob] at hm
          cases hin : bytesContains c (aid ++ "\n") with
          | true =>
            left
            rw [hin] at hm
            simp only [if_true] at hm
            injection hm with hm2
            rw [← hm2]
            exact ⟨rfl, rfl⟩
          | false =>
            right
            rw [hin] at hm
            simp only [Bool.false_eq_true, if_false] at hm
            injection hm with hm2
            rw [← hm2]
            exact ⟨rfl, rfl⟩
        | tree es =>
          exact absurd (show (Except.error MergeError.treeHasNoData :
            Except MergeError (Option Entry)) = .ok r from hm) (by simp)
  | cons s rest ih =>
    intro t old r hwf hm hp
    cases t with
    | node v cs =>
      have hv : v = false := by
        cases v
        · rfl
        · simp [procFile, Trie.val] at hp
      subst hv
      obtain ⟨base, es, hbase, hmc, hr⟩ := mergeNode_dir_ok aid old cs r hm
      subst hr
      simp only [procFile, Trie.val, Trie.children, Bool.not_false, Bool.true_and] at hp
      cases hg : childGet cs s with
      | none => rw [hg] at hp; exact absurd hp (by simp)
      | some t' =>
        rw [hg] at hp
        have hwfcs : TrieListWF cs := hwf
        have hwf2 : TrieWF t' := (childGet_wf cs hwfcs s t' hg).1
        obtain ⟨co, r2, hco, hr2, hfind⟩ :=
          mergeChildren_in aid old cs base es hwfcs hmc s t' hg
        have hcoeq : assocFind base s = co := by
          have hcb := childLookup_base old base hbase s
          rw [hcb] at hco
          injection hco
        have hold : lookupOpt old (s :: rest) = lookupOpt co rest := by
          rw [lookupOpt_old_cons old base hbase s rest, hcoeq]
        have hnew : lookupOpt (resolved (some (.tree es)) old) (s :: rest) =
            lookupOpt (resolved r2 co) rest := by
          show lookupOpt (some (.tree es)) (s :: rest) = lookupOpt (resolved r2 co) rest
          show Entry.lookup (.tree es) (s :: rest) = lookupOpt (resolved r2 co) rest
          rw [lookup_tree_cons, hfind, hcoeq]
        rw [hold, hnew]
        exact ih t' co r2 hwf2 hr2 hp

/-- After a successful merge, the entry at any path the traversal
processed as a directory is a tree. -/
theorem merge_dir_path (aid : String) :
    ∀ (p : List String) (t : Trie) (old r : Option Entry),
      TrieWF t → mergeNode aid old t = .ok r → procDir t p = true →
      ∃ es2, lookupOpt (resolved r old) p = some (.tree es2) := by
  intro p
  induction p with
  | nil =>
    intro t old r hwf hm hp
    cases t with
    | node v cs =>
      have hv : v = false := by
        cases v
        · rfl
        · simp [procDir, Trie.val] at hp
      subst hv
      obtain ⟨base, es, hbase, hmc, hr⟩ := mergeNode_dir_ok aid old cs r hm
      subst hr
      exact ⟨es, rfl⟩
  | cons s rest ih =>
    intro t old r hwf hm hp
    cases t with
    | node v cs =>
      have hv : v = false := by
        cases v
        · rfl
        · simp [procDir, Trie.val] at hp
      subst hv
      obtain ⟨base, es, hbase, hmc, hr⟩ := mergeNode_dir_ok aid old cs r hm
      subst hr
      simp only [procDir, Trie.val, Trie.children, Bool.not_false, Bool.true_and] at hp
      cases hg : childGet cs s with
      | none => rw [hg] at hp; exact absurd hp (by simp)
      | some t' =>
        rw [hg] at hp
        have hwfcs : TrieListWF cs := hwf
        have hwf2 : TrieWF t' := (childGet_wf cs hwfcs s t' hg).1
        obtain ⟨co, r2, hco, hr2, hfind⟩ :=
          mergeChildren_in aid old cs base es hwfcs hmc s t' hg
        have hcoeq : assocFind base s = co := by
          have hcb := childLookup_base old base hbase s
          rw [hcb] at hco
          injection hco
        have hnew : lookupOpt (resolved (some (.tree es)) old) (s :: rest) =
            lookupOpt (resolved r2 co) rest := by
          show Entry.lookup (.tree es) (s :: rest) = lookupOpt (resolved r2 co) rest
          rw [lookup_tree_cons, hfind, hcoeq]
        rw [hnew]
        exact ih t' co r2 hwf2 hr2 hp

/-- A successful `is_file` merge leaves every strictly longer path
unresolvable on both sides (blobs have no children). -/
theorem merge_file_nonempty (aid : String) (old r : Option Entry) (cs : TrieList)
    (hm : mergeNode aid old (.node true cs) = .ok r) (s : String) (rest : List String) :
    lookupOpt (resolved r old) (s :: rest) = lookupOpt old (s :: rest) := by
  replace hm : mergeFile aid old = .ok r := hm
  cases old with
  | none =>
    replace hm : Except.ok (some (Entry.blob (aid ++ "\n"))) = Except.ok r := hm
    injection hm with hm2
    rw [← hm2]
    rfl
  | some e0 =>
    cases e0 with
    | blob c =>
      rw [mergeFile_blob] at hm
      cases hin : bytesContains c (aid ++ "\n") with
      | true =>
        rw [hin] at hm
        simp only [if_true] at hm
        injection hm with hm2
        rw [← hm2]
        rfl
      | false =>
        rw [hin] at hm
        simp only [Bool.false_eq_true, if_false] at hm
        injection hm with hm2
        rw [← hm2]
        rfl
    | tree es =>
      exact absurd (show (Except.error MergeError.treeHasNoData :
        Except MergeError (Option Entry)) = .ok r from hm) (by simp)

/-- Frame property of the merge: any (nonempty) path with no trie key at
or below it resolves to exactly the same entry as before. -/
theorem merge_frame (aid : String) :
    ∀ (rest : List String) (s : String) (t : Trie) (old r : Option Entry),
      TrieWF t → mergeNode aid old t = .ok r → keyBelow t (s :: rest) = false →
      lookupOpt (resolved r old) (s :: rest) = lookupOpt old (s :: rest) := by
  intro rest
  induction rest with
  | nil =>
    intro s t old r hwf hm hk
    cases t with
    | node v cs =>
      cases v with
      | true => exact merge_file_nonempty aid old r cs hm s []
      | false =>
        obtain ⟨base, es, hbase, hmc, hr⟩ := mergeNode_dir_ok aid old cs r hm
        subst hr
        have hwfcs : TrieListWF cs := hwf
        simp only [keyBelow, Trie.children] at hk
        cases hg : childGet cs s with
        | none =>
          have hfind := mergeChildren_notin aid old cs base es hmc s hg
          show Entry.lookup (.tree es) (s :: []) = lookupOpt old (s :: [])
          rw [lookup_tree_cons, hfind, lookupOpt_old_cons old base hbase s []]
        | some t' =>
          rw [hg] at hk
          replace hk : anyVal t' = false := hk
          rw [(childGet_wf cs hwfcs s t' hg).2] at hk
          exact absurd hk (by simp)
  | cons s2 rest2 ih =>
    intro s t old r hwf hm hk
    cases t with
    | node v cs =>
      cases v with
      | true => exact merge_file_nonempty aid old r cs hm s (s2 :: rest2)
      | false =>
        obtain ⟨base, es, hbase, hmc, hr⟩ := mergeNode_dir_ok aid old cs r hm
        subst hr
        have hwfcs : TrieListWF cs := hwf
        simp only [keyBelow, Trie.children] at hk
        cases hg : childGet cs s with
        | none =>
          have hfind := mergeChildren_notin aid old cs base es hmc s hg
          show Entry.lookup (.tree es) (s :: s2 :: rest2) = lookupOpt old (s :: s2 :: rest2)
          rw [lookup_tree_cons, hfind, lookupOpt_old_cons old base hbase s (s2 :: rest2)]
        | some t' =>
          rw [hg] at hk
          have hwf2 : TrieWF t' := (childGet_wf cs hwfcs s t' hg).1
          obtain ⟨co, r2, hco, hr2, hfind⟩ :=
            mergeChildren_in aid old cs base es hwfcs hmc s t' hg
          have hcoeq : assocFind base s = co := by
            have hcb := childLookup_base old base hbase s
            rw [hcb] at hco
            injection hco
          have hnew : lookupOpt (resolved (some (.tree es)) old) (s :: s2 :: rest2) =
              lookupOpt (resolved r2 co) (s2 :: rest2) := by
            show Entry.lookup (.tree es) (s :: s2 :: rest2) = lookupOpt (resolved r2 co) (s2 :: rest2)
            rw [lookup_tree_cons, hfind, hcoeq]
          rw [hnew, ih s2 t' co r2 hwf2 hr2 hk,
            lookupOpt_old_cons old base hbase s (s2 :: rest2), hcoeq]

/-- A successful addition never loses a blob: every path resolving to a
blob before resolves to a blob after, with identical content or with
`aid ++ "\n"` appended (the latter only when the substring check did not
fire). -/
theorem merge_blob_pres (aid : String) :
    ∀ (p : List String) (t : Trie) (old r : Option Entry),
      TrieWF t → mergeNode aid old t = .ok r → ∀ c,
      lookupOpt old p = some (.blob c) →
      lookupOpt (resolved r old) p = some (.blob c) ∨
      (bytesContains c (aid ++ "\n") = false ∧
        lookupOpt (resolved r old) p = some (.blob (c ++ aid ++ "\n"))) := by
  intro p
  induction p with
  | nil =>
    intro t old r hwf hm c hc
    have holdc : old = some (.blob c) := by
      cases old with
      | none => simp [lookupOpt] at hc
      | some e0 => simpa [lookupOpt, Entry.lookup] using hc
    subst holdc
    cases t with
    | node v cs =>
      cases v with
      | true =>
        replace hm : mergeFile aid (some (.blob c)) = .ok r := hm
        rw [mergeFile_blob] at hm
        cases hin : bytesContains c (aid ++ "\n") with
        | true =>
          rw [hin] at hm
          simp only [if_true] at hm
          injection hm with hm2
          rw [← hm2]
          left
          rfl
        | false =>
          rw [hin] at hm
          simp only [Bool.false_eq_true, if_false] at hm
          injection hm with hm2
          rw [← hm2]
          right
          exact ⟨rfl, rfl⟩
      | false =>
        obtain ⟨base, es, hbase, hmc, hr⟩ := mergeNode_dir_ok aid (some (.blob c)) cs r hm
        rcases hbase with ⟨h1, -⟩ | ⟨es0, h1, -⟩ <;> simp at h1
  | cons s rest ih =>
    intro t old r hwf hm c hc
    obtain ⟨es0, holdc⟩ : ∃ es0, old = some (.tree es0) := by
      cases old with
      | none => simp [lookupOpt] at hc
      | some e0 =>
        cases e0 with
        | blob c0 => simp [lookupOpt, Entry.lookup] at hc
        | tree es0 => exact ⟨es0, rfl⟩
    subst holdc
    cases t with
    | node v cs =>
      cases v with
      | true =>
        replace hm : mergeFile aid (some (.tree es0)) = .ok r := hm
        exact absurd (show (Except.error MergeError.treeHasNoData :
          Except MergeError (Option Entry)) = .ok r from hm) (by simp)
      | false =>
        obtain ⟨base, es, hbase, hmc, hr⟩ := mergeNode_dir_ok aid _ cs r hm
        subst hr
        have hwfcs : TrieListWF cs := hwf
        have hbeq : base = es0 := by
          rcases hbase with ⟨h1, -⟩ | ⟨es1, h1, h2⟩
          · exact absurd h1 (by simp)
          · injection h1 with h1'
            injection h1' with h1''
            rw [h2, ← h1'']
        subst hbeq
        cases hg : childGet cs s with
        | none =>
          have hfind := mergeChildren_notin aid _ cs base es hmc s hg
          left
          show Entry.lookup (.tree es) (s :: rest) = some (.blob c)
          rw [lookup_tree_cons, hfind]
          rw [show lookupOpt (some (.tree base)) (s :: rest) =
            lookupOpt (assocFind base s) rest from lookup_tree_cons base s rest] at hc
          exact hc
        | some t' =>
          have hwf2 : TrieWF t' := (childGet_wf cs hwfcs s t' hg).1
          obtain ⟨co, r2, hco, hr2, hfind⟩ :=
            mergeChildren_in aid _ cs base es hwfcs hmc s t' hg
          have hcoeq : assocFind base s = co := by
            have hcb := childLookup_base (some (.tree base)) base (.inr ⟨base, rfl, rfl⟩) s
            rw [hcb] at hco
            injection hco
          have hc2 : lookupOpt co rest = some (.blob c) := by
            rw [← hcoeq]
            rw [show lookupOpt (some (.tree base)) (s :: rest) =
              lookupOpt (assocFind base s) rest from lookup_tree_cons base s rest] at hc
            exact hc
          have hnew : lookupOpt (resolved (some (.tree es)) (some (.tree base))) (s :: rest) =
              lookupOpt (resolved r2 co) rest := by
            show Entry.lookup (.tree es) (s :: rest) = lookupOpt (resolved r2 co) rest
            rw [lookup_tree_cons, hfind, hcoeq]
          rw [hnew]
          exact ih t' co r2 hwf2 hr2 c hc2

/-- Inverse characterization: any blob reachable after a successful
merge is an untouched old blob, an old blob with `aid ++ "\n"` appended,
or the freshly created single-record blob. -/
theorem merge_inverse (aid : String) :
    ∀ (p : List String) (t : Trie) (old r : Option Entry),
      TrieWF t → mergeNode aid old t = .ok r → ∀ c2,
      lookupOpt (resolved r old) p = some (.blob c2) →
      lookupOpt old p = some (.blob c2) ∨
      (∃ c, lookupOpt old p = some (.blob c) ∧ bytesContains c (aid ++ "\n") = false ∧
        c2 = c ++ aid ++ "\n") ∨
      c2 = aid ++ "\n" := by
  intro p
  induction p with
  | nil =>
    intro t old r hwf hm c2 hc
    cases t with
    | node v cs =>
      cases v with
      | true =>
        replace hm : mergeFile aid old = .ok r := hm
        cases old with
        | none =>
          replace hm : Except.ok (some (Entry.blob (aid ++ "\n"))) = Except.ok r := hm
          injection hm with hm2
          rw [← hm2] at hc
          replace hc : some (Entry.blob (aid ++ "\n")) = some (Entry.blob c2) := hc
          injection hc with hc2
          injection hc2 with hc3
          exact .inr (.inr hc3.symm)
        | some e0 =>
          cases e0 with
          | blob c =>
            rw [mergeFile_blob] at hm
            cases hin : bytesContains c (aid ++ "\n") with
            | true =>
              rw [hin] at hm
              simp only [if_true] at hm
              injection hm with hm2
              rw [← hm2] at hc
              exact .inl hc
            | false =>
              rw [hin] at hm
              simp only [Bool.false_eq_true, if_false] at hm
              injection hm with hm2
              rw [← hm2] at hc
              replace hc : some (Entry.blob (c ++ aid ++ "\n")) = some (Entry.blob c2) := hc
              injection hc with hc2
              injection hc2 with hc3
              exact .inr (.inl ⟨c, rfl, hin, hc3.symm⟩)
          | tree es =>
            exact absurd (show (Except.error MergeError.treeHasNoData :
              Except MergeError (Option Entry)) = .ok r from hm) (by simp)
      | false =>
        obtain ⟨base, es, hbase, hmc, hr⟩ := mergeNode_dir_ok aid old cs r hm
        subst hr
        replace hc : some (Entry.tree es) = some (Entry.blob c2) := hc
        injection hc with hc2
        exact absurd hc2 (by simp)
  | cons s rest ih =>
    intro t old r hwf hm c2 hc
    cases t with
    | node v cs =>
      cases v with
      | true =>
        rw [merge_file_nonempty aid old r cs hm s rest] at hc
        exact .inl hc
      | false =>
        obtain ⟨base, es, hbase, hmc, hr⟩ := mergeNode_dir_ok aid old cs r hm
        subst hr
        have hwfcs : TrieListWF cs := hwf
        replace hc : Entry.lookup (.tree es) (s :: rest) = some (.blob c2) := hc
        rw [lookup_tree_cons] at hc
        cases hg : childGet cs s with
        | none =>
          have hfind := mergeChildren_notin aid old cs base es hmc s hg
          rw [hfind] at hc
          left
          rw [lookupOpt_old_cons old base hbase s rest]
          exact hc
        | some t' =>
          have hwf2 : TrieWF t' := (childGet_wf cs hwfcs s t' hg).1
          obtain ⟨co, r2, hco, hr2, hfind⟩ :=
            mergeChildren_in aid old cs base es hwfcs hmc s t' hg
          have hcoeq : assocFind base s = co := by
            have hcb := childLookup_base old base hbase s
            rw [hcb] at hco
            injection hco
          rw [hfind, hcoeq] at hc
          have hold : lookupOpt old (s :: rest) = lookupOpt co rest := by
            rw [lookupOpt_old_cons old base hbase s rest, hcoeq]
          rw [hold]
          exact ih t' co r2 hwf2 hr2 c2 hc

/-- If every child's merge yields the sentinel or reproduces the entry
already seeded in the builder, the children loop returns the builder's
contents untouched. -/
theorem mergeChildren_idem (aid : String) (es0 : EntryList) :
    ∀ (cs : TrieList), TrieListWF cs →
      (∀ n t2, childGet cs n = some t2 →
        mergeNode aid (assocFind es0 n) t2 =
          .ok (if t2.val = true then none else assocFind es0 n)) →
      ∀ acc, (∀ n, (childGet cs n).isSome → assocFind acc n = assocFind es0 n) →
      mergeChildren aid (some (.tree es0)) cs acc = .ok acc := by
  intro cs
  induction cs using TrieList.inductionOn with
  | hnil =>
    intro _ _ acc _
    exact mergeChildren_nil aid _ acc
  | hcons n t2 ts ih =>
    intro hwf hch acc hacc
    obtain ⟨hnd, -, -, hwfR⟩ := hwf
    have hco : childLookup (some (.tree es0)) n = .ok (assocFind es0 n) := rfl
    have hr := hch n t2 (by simp [childGet])
    rw [mergeChildren_cons aid _ n t2 ts acc _ _ hco hr]
    have hacc2 : applyIns acc n (if t2.val = true then none else assocFind es0 n) = acc := by
      cases hv : t2.val with
      | true => simp [applyIns, hv]
      | false =>
        simp only [hv, Bool.false_eq_true, if_false]
        cases hfa : assocFind es0 n with
        | none => rfl
        | some e =>
          have hae : assocFind acc n = some e := by
            rw [hacc n (by simp [childGet]), hfa]
          simp [applyIns, tbInsert_same acc n e hae]
    rw [hacc2]
    refine ih hwfR ?_ acc ?_
    · intro m tm hm
      have hmn : m ≠ n := by
        intro hcontra
        rw [hcontra, hnd] at hm
        exact Option.noConfusion hm
      exact hch m tm (by simpa [childGet, Ne.symm hmn] using hm)
    · intro m hm
      have hmn : m ≠ n := by
        intro hcontra
        rw [hcontra, hnd] at hm
        simp at hm
      refine hacc m ?_
      simpa [childGet, Ne.symm hmn] using hm

/-- Idempotence of the merge: when every processed file path already
holds a blob containing `aid ++ "\n"` and every processed directory
path holds a tree, the merge succeeds and changes nothing (file nodes
return the sentinel, directory nodes rebuild their old entry). -/
theorem merge_idem (aid : String) :
    ∀ (t : Trie), TrieWF t → ∀ (old : Option Entry),
      (∀ p, procFile t p = true → ∃ c, lookupOpt old p = some (.blob c) ∧
        bytesContains c (aid ++ "\n") = true) →
      (∀ p, procDir t p = true → ∃ es2, lookupOpt old p = some (.tree es2)) →
      mergeNode aid old t = .ok (if t.val = true then none else old) := by
  intro t
  induction t using Trie.childInduction with
  | h v cs ihc =>
    intro hwf old hFile hDir
    cases v with
    | true =>
      obtain ⟨c, hcl, hcin⟩ := hFile [] (by simp [procFile, Trie.val])
      have holdc : old = some (.blob c) := by
        cases old with
        | none => simp [lookupOpt] at hcl
        | some e0 => simpa [lookupOpt, Entry.lookup] using hcl
      subst holdc
      show mergeFile aid (some (.blob c)) = .ok (if (Trie.node true cs).val = true then none else _)
      rw [mergeFile_blob, if_pos hcin]
      simp [Trie.val]
    | false =>
      obtain ⟨es0, hes0⟩ := hDir [] (by simp [procDir, Trie.val])
      have holdc : old = some (.tree es0) := by
        cases old with
        | none => simp [lookupOpt] at hes0
        | some e0 => simpa [lookupOpt, Entry.lookup] using hes0
      subst holdc
      have hwfcs : TrieListWF cs := hwf
      have hch : ∀ n t2, childGet cs n = some t2 →
          mergeNode aid (assocFind es0 n) t2 =
            .ok (if t2.val = true then none else assocFind es0 n) := by
        intro n t2 hget
        have hwf2 : TrieWF t2 := (childGet_wf cs hwfcs n t2 hget).1
        refine ihc n t2 hget hwf2 (assocFind es0 n) ?_ ?_
        · intro p hp
          have hp2 : procFile (Trie.node false cs) (n :: p) = true := by
            simp [procFile, Trie.val, Trie.children, hget, hp]
          obtain ⟨c, hcl, hcin⟩ := hFile (n :: p) hp2
          refine ⟨c, ?_, hcin⟩
          rw [show lookupOpt (some (.tree es0)) (n :: p) =
            lookupOpt (assocFind es0 n) p from lookup_tree_cons es0 n p] at hcl
          exact hcl
        · intro p hp
          have hp2 : procDir (Trie.node false cs) (n :: p) = true := by
            simp [procDir, Trie.val, Trie.children, hget, hp]
          obtain ⟨es2, hcl⟩ := hDir (n :: p) hp2
          refine ⟨es2, ?_⟩
          rw [show lookupOpt (some (.tree es0)) (n :: p) =
            lookupOpt (assocFind es0 n) p from lookup_tree_cons es0 n p] at hcl
          exact hcl
      have hmc : mergeChildren aid (some (.tree es0)) cs es0 = .ok es0 :=
        mergeChildren_idem aid es0 cs hwfcs hch es0 (fun _ _ => rfl)
      have hfinal : (do
          let es ← mergeChildren aid (some (.tree es0)) cs es0
          Except.ok (some (Entry.tree es)) : Except MergeError (Option Entry)) =
          .ok (some (.tree es0)) := by
        rw [hmc]
        rfl
      show (do
          let es ← mergeChildren aid (some (.tree es0)) cs es0
          Except.ok (some (Entry.tree es)) : Except MergeError (Option Entry)) =
        .ok (if (Trie.node false cs).val = true then none else some (.tree es0))
      rw [hfinal]
      rfl

/-! ### Repository-level plumbing -/

theorem splitChars_ne_nil (sep : Char) (l : List Char) : splitChars sep l ≠ [] := by
  cases l with
  | nil => simp [splitChars]
  | cons c cs =>
    rw [splitChars]
    by_cases h : c = sep
    · simp [h]
    · simp only [if_neg h]
      cases splitChars sep cs <;> simp

theorem splitPath_ne_nil (f : String) : splitPath f ≠ [] := by
  unfold splitPath
  intro h
  exact splitChars_ne_nil '/' f.data (by simpa using h)

/-- The root of a trie built by `fromkeys` never carries a value: even
the empty key becomes a child with an empty segment name. -/
theorem trieFromKeys_val (files : List String) : (trieFromKeys files).val = false := by
  have : ∀ t, t.val = false →
      (files.foldl (fun t f => trieInsert t (splitPath f)) t).val = false := by
    induction files with
    | nil => intro t h; exact h
    | cons f fs ih =>
      intro t h
      refine ih _ ?_
      cases hs : splitPath f with
      | nil => exact absurd hs (splitPath_ne_nil f)
      | cons s rest =>
        cases t with
        | node v cs =>
          show (trieInsert (Trie.node v cs) (splitPath f)).val = false
          rw [hs]
          simpa [trieInsert, Trie.val] using h
  exact this emptyTrie rfl

/-- Inversion of a successful `mergeRoot`: the traversal's root result
resolves against the previous tree to the returned snapshot. -/
theorem mergeRoot_ok_inv (aid : String) (prev : Entry) (t : Trie) (root : Entry)
    (h : mergeRoot aid prev t = .ok root) :
    ∃ r, mergeNode aid (some prev) t = .ok r ∧ some root = resolved r (some prev) := by
  cases hm : mergeNode aid (some prev) t with
  | error e =>
    rw [show mergeRoot aid prev t = (do
      match ← mergeNode aid (some prev) t with
      | some e => .ok e
      | none => .ok prev) from rfl, hm] at h
    exact absurd (show Except.error e = Except.ok root from h) (by simp)
  | ok r =>
    rw [show mergeRoot aid prev t = (do
      match ← mergeNode aid (some prev) t with
      | some e => .ok e
      | none => .ok prev) from rfl, hm] at h
    cases r with
    | none =>
      replace h : Except.ok prev = Except.ok root := h
      injection h with h2
      exact ⟨none, rfl, by rw [← h2]; rfl⟩
    | some e =>
      replace h : Except.ok e = Except.ok root := h
      injection h with h2
      exact ⟨some e, rfl, by rw [← h2]; rfl⟩

/-- Inversion of a successful addition. -/
theorem add_ok_inv (st : RepoState) (info : Info) (st' : RepoState)
    (h : add_artifact_to_repo st info = .ok st') :
    ∃ aid root, info_to_artifact_id info = .ok aid ∧
      mergeRoot aid st.head.tree (trieFromKeys info.files) = .ok root ∧
      st' = ⟨.mk (.cons st.head .nil) root ("Adding " ++ aid) (infoTimestamp info)⟩ := by
  cases hid : info_to_artifact_id info with
  | error e =>
    rw [show add_artifact_to_repo st info = (do
      let artifact_id ← info_to_artifact_id info
      let root ← match mergeRoot artifact_id st.head.tree (trieFromKeys info.files) with
        | .ok r => .ok r
        | .error e => .error (AddError.mergeError e)
      .ok (⟨.mk (.cons st.head .nil) root ("Adding " ++ artifact_id) (infoTimestamp info)⟩ :
        RepoState)) from rfl, hid] at h
    exact absurd (show Except.error e = Except.ok st' from h) (by simp)
  | ok aid =>
    rw [show add_artifact_to_repo st info = (do
      let artifact_id ← info_to_artifact_id info
      let root ← match mergeRoot artifact_id st.head.tree (trieFromKeys info.files) with
        | .ok r => .ok r
        | .error e => .error (AddError.mergeError e)
      .ok (⟨.mk (.cons st.head .nil) root ("Adding " ++ artifact_id) (infoTimestamp info)⟩ :
        RepoState)) from rfl, hid] at h
    cases hmr : mergeRoot aid st.head.tree (trieFromKeys info.files) with
    | error e =>
      replace h : (do
        let root ← match mergeRoot aid st.head.tree (trieFromKeys info.files) with
          | .ok r => .ok r
          | .error e => .error (AddError.mergeError e)
        .ok (⟨.mk (.cons st.head .nil) root ("Adding " ++ aid) (infoTimestamp info)⟩ :
          RepoState)) = Except.ok st' := h
      rw [hmr] at h
      exact absurd (show Except.error (AddError.mergeError e) = Except.ok st' from h) (by simp)
    | ok root =>
      replace h : (do
        let root ← match mergeRoot aid st.head.tree (trieFromKeys info.files) with
          | .ok r => .ok r
          | .error e => .error (AddError.mergeError e)
        .ok (⟨.mk (.cons st.head .nil) root ("Adding " ++ aid) (infoTimestamp info)⟩ :
          RepoState)) = Except.ok st' := h
      rw [hmr] at h
      replace h : Except.ok (⟨.mk (.cons st.head .nil) root ("Adding " ++ aid)
        (infoTimestamp info)⟩ : RepoState) = Except.ok st' := h
      injection h with h2
      exact ⟨aid, root, rfl, hmr, h2.symm⟩

/-- Construction of a successful addition. -/
theorem add_ok_of (st : RepoState) (info : Info) (aid : String) (root : Entry)
    (hid : info_to_artifact_id info = .ok aid)
    (hmr : mergeRoot aid st.head.tree (trieFromKeys info.files) = .ok root) :
    add_artifact_to_repo st info =
      .ok ⟨.mk (.cons st.head .nil) root ("Adding " ++ aid) (infoTimestamp info)⟩ := by
  rw [show add_artifact_to_repo st info = (do
    let artifact_id ← info_to_artifact_id info
    let root ← match mergeRoot artifact_id st.head.tree (trieFromKeys info.files) with
      | .ok r => .ok r
      | .error e => .error (AddError.mergeError e)
    .ok (⟨.mk (.cons st.head .nil) root ("Adding " ++ artifact_id) (infoTimestamp info)⟩ :
      RepoState)) from rfl, hid]
  show (do
    let rt ← match mergeRoot aid st.head.tree (trieFromKeys info.files) with
      | .ok r => Except.ok r
      | .error e => Except.error (AddError.mergeError e)
    Except.ok (⟨.mk (.cons st.head .nil) rt ("Adding " ++ aid) (infoTimestamp info)⟩ :
      RepoState)) =
    Except.ok (⟨.mk (.cons st.head .nil) root ("Adding " ++ aid) (infoTimestamp info)⟩ :
      RepoState)
  rw [hmr]
  rfl

/-- The full effect of one successful addition on the object graph. -/
theorem add_tree_rel (st : RepoState) (info : Info) (st' : RepoState)
    (h : add_artifact_to_repo st info = .ok st') :
    ∃ aid r, info_to_artifact_id info = .ok aid ∧
      mergeNode aid (some st.head.tree) (trieFromKeys info.files) = .ok r ∧
      some st'.head.tree = resolved r (some st.head.tree) ∧
      st'.head.parents = .cons st.head .nil := by
  obtain ⟨aid, root, hid, hmr, hst⟩ := add_ok_inv st info st' h
  obtain ⟨r, hm, hres⟩ := mergeRoot_ok_inv aid st.head.tree _ root hmr
  subst hst
  exact ⟨aid, r, hid, hm, hres, rfl⟩

/-- Every reachable head commit's snapshot is a tree object. -/
theorem reachable_tree {l : List Info} {st : RepoState} (h : ReachableVia l st) :
    ∃ es, st.head.tree = .tree es := by
  induction h with
  | init => exact ⟨.nil, rfl⟩
  | step hrev hadd ih =>
    rename_i l0 st0 info st1
    obtain ⟨aid, r, hid, hm, hres, -⟩ := add_tree_rel st0 info st1 hadd
    have hval := trieFromKeys_val info.files
    cases htr : trieFromKeys info.files with
    | node v cs =>
      rw [htr] at hm
      rw [htr] at hval
      have hv : v = false := by simpa [Trie.val] using hval
      subst hv
      obtain ⟨base, es, hbase, hmc, hr⟩ := mergeNode_dir_ok aid _ cs r hm
      subst hr
      replace hres : some st1.head.tree = some (Entry.tree es) := hres
      injection hres with h2
      exact ⟨es, h2⟩

/-! ### Well-formed blob payloads -/

theorem WFBlob_single (aid : String) (hnl : '\n' ∉ aid.data) :
    WFBlob (aid ++ "\n") := by
  refine ⟨[aid.data], by simpa using hnl, List.nodup_singleton _, ?_⟩
  simp [String.data_append]

theorem WFBlob_append (c : String) (aid : String) (hwf : WFBlob c)
    (hnl : '\n' ∉ aid.data) (hnc : bytesContains c (aid ++ "\n") = false) :
    WFBlob (c ++ aid ++ "\n") := by
  obtain ⟨ls, hls, hnd, hdata⟩ := hwf
  refine ⟨ls ++ [aid.data], ?_, ?_, ?_⟩
  · intro l hl
    rcases List.mem_append.1 hl with hl | hl
    · exact hls l hl
    · simp at hl
      rw [hl]
      exact hnl
  · have hmem : aid.data ∉ ls := by
      intro hmem
      have hinf : (aid.data ++ ['\n']) <:+: c.data := line_infix c ls aid.data hdata hmem
      have : bytesContains c (aid ++ "\n") = true := by
        unfold bytesContains
        simp only [decide_eq_true_eq]
        have : (aid ++ "\n").data = aid.data ++ ['\n'] := by
          simp [String.data_append]
        rw [this]
        exact hinf
      rw [this] at hnc
      exact Bool.noConfusion hnc
    have hperm : (ls ++ [aid.data]).Perm (aid.data :: ls) := List.perm_append_singleton _ _
    exact hperm.nodup_iff.2 (List.Nodup.cons hmem hnd)
  · have h1 : (c ++ aid ++ "\n").data = c.data ++ aid.data ++ ['\n'] := by
      simp [String.data_append]
    rw [h1, hdata]
    simp [List.flatten_append]

theorem WFBlob_nodup_lines (c : String) (hwf : WFBlob c) :
    (contentLines c).Nodup := by
  obtain ⟨ls, hls, hnd, hdata⟩ := hwf
  rw [contentLines_wf c ls hls hdata]
  exact hnd

/-- A listed path with no other listed path strictly above it is
processed as a file by the traversal. -/
theorem procFile_files (files : List String) (f : String) (hf : f ∈ files)
    (hpre : ∀ g ∈ files, splitPath g <+: splitPath f → splitPath g = splitPath f) :
    procFile (trieFromKeys files) (splitPath f) = true := by
  refine procFile_of_keys (splitPath f) (trieFromKeys files) ?_ ?_
  · rw [trieHasKey_fromKeys]
    refine List.any_eq_true.2 ⟨f, hf, by simp⟩
  · intro q hq hne
    rw [trieHasKey_fromKeys]
    by_contra hcontra
    rw [Bool.not_eq_false, List.any_eq_true] at hcontra
    obtain ⟨g, hg, hgq⟩ := hcontra
    rw [decide_eq_true_eq] at hgq
    have hgf : splitPath g <+: splitPath f := by rw [hgq]; exact hq
    have heq : splitPath g = splitPath f := hpre g hg hgf
    exact hne (by rw [← hgq, heq])

/-- Blobs of a well-formed trie merge never lose an already-recorded
substring: one successful addition maps a blob containing a given byte
sequence to a blob still containing it. -/
theorem add_blob_infix_pres (st : RepoState) (info : Info) (st' : RepoState)
    (h : add_artifact_to_repo st info = .ok st') (p : List String) (c : String)
    (hc : st.head.tree.lookup p = some (.blob c)) (needle : List Char)
    (hinf : needle <:+: c.data) :
    ∃ c2, st'.head.tree.lookup p = some (.blob c2) ∧ needle <:+: c2.data := by
  obtain ⟨aid, r, hid, hm, hres, -⟩ := add_tree_rel st info st' h
  have hwf := trieWF_fromKeys info.files
  have hpres := merge_blob_pres aid p (trieFromKeys info.files) (some st.head.tree) r hwf hm c hc
  have hlk : lookupOpt (resolved r (some st.head.tree)) p =
      lookupOpt (some st'.head.tree) p := by rw [hres]
  rcases hpres with hsame | ⟨-, happ⟩
  · rw [hlk] at hsame
    exact ⟨c, hsame, hinf⟩
  · rw [hlk] at happ
    refine ⟨c ++ aid ++ "\n", happ, ?_⟩
    have hdata : (c ++ aid ++ "\n").data = c.data ++ (aid.data ++ "\n".data) := by
      simp [String.data_append]
    rw [hdata]
    exact hinf.trans (List.prefix_append c.data _).isInfix

/-! ### The claims -/

/-- C1 (amended): for every path P listed in a processed artifact
descriptor — under the documented caller contract that no other path of
the same descriptor is a strict path-prefix of P — the FileEntry
reachable at P after that artifact's addition, and from every later
snapshot of the run, contains the bytes of that artifact's id followed
by a newline as a substring of its content (not necessarily as a whole
line). -/
theorem c1_completeness_substring :
    ∀ {l : List Info} {st : RepoState}, ReachableVia l st →
    ∀ info, info ∈ l → ∀ aid, info_to_artifact_id info = .ok aid →
    ∀ f, f ∈ info.files →
    (∀ g ∈ info.files, splitPath g <+: splitPath f → splitPath g = splitPath f) →
    blobContaining (st.head.tree.lookup (splitPath f)) aid := by
  intro l st h
  induction h with
  | init => intro info hmem; simp at hmem
  | step hrev hadd ih =>
    rename_i l0 st0 info1 st1
    intro info hmem aid hid f hf hpre
    rcases List.mem_append.1 hmem with hmem0 | hmem1
    · obtain ⟨c, hc, hinf⟩ := ih info hmem0 aid hid f hf hpre
      obtain ⟨c2, hc2, hinf2⟩ :=
        add_blob_infix_pres st0 info1 st1 hadd (splitPath f) c hc _ hinf
      exact ⟨c2, hc2, hinf2⟩
    · have hinfo : info = info1 := by simpa using hmem1
      subst hinfo
      obtain ⟨aid2, r, hid2, hm, hres, -⟩ := add_tree_rel st0 info st1 hadd
      rw [hid] at hid2
      injection hid2 with haid
      subst haid
      have hwf := trieWF_fromKeys info.files
      have hproc := procFile_files info.files f hf hpre
      have hfp := merge_file_path aid (splitPath f) _ _ r hwf hm hproc
      have hlk : ∀ x, lookupOpt (resolved r (some st0.head.tree)) (splitPath f) = x →
          st1.head.tree.lookup (splitPath f) = x := by
        intro x hx
        have hgoal : lookupOpt (some st1.head.tree) (splitPath f) = x := by
          rw [hres]; exact hx
        exact hgoal
      rcases hfp with ⟨-, hnew⟩ | ⟨c, -, ⟨hin, hnew⟩ | ⟨-, hnew⟩⟩
      · exact ⟨aid ++ "\n", hlk _ hnew, List.infix_rfl⟩
      · refine ⟨c, hlk _ hnew, ?_⟩
        unfold bytesContains at hin
        exact of_decide_eq_true hin
      · refine ⟨c ++ aid ++ "\n", hlk _ hnew, ?_⟩
        have hdata : (c ++ aid ++ "\n").data = c.data ++ (aid ++ "\n").data := by
          simp [String.data_append]
        rw [hdata]
        exact (List.suffix_append c.data _).isInfix

/-- C1, claim as stated refuted: after adding artifact `subdir/name-1-0`
at path `p` and then artifact `r/name-1-0` at path `p` (a well-formed id
that is a strict suffix of the first), the blob at `p` does not list the
second artifact's id on any newline-terminated line — the substring
check fired spuriously and nothing was appended. -/
theorem c1_counterexample :
    add_artifact_to_repo init_repo descA1 = .ok stA1 ∧
    add_artifact_to_repo stA1 descA2 = .ok stA2 ∧
    info_to_artifact_id descA2 = .ok "r/name-1-0" ∧
    descA2.files = ["p"] ∧
    stA2.head.tree.lookup (splitPath "p") = some (.blob "subdir/name-1-0\n") ∧
    "r/name-1-0".data ∉ contentLines "subdir/name-1-0\n" :=
  ⟨rfl, rfl, rfl, rfl, rfl, by decide⟩

/-- Witness for the amended C1 at the concrete scenario of the spec. -/
theorem c1_witness :
    blobContaining (stFoo.head.tree.lookup (splitPath "bin/foo")) "linux-64/foo-1.0-0" :=
  c1_completeness_substring
    (show ReachableVia ([] ++ [descFoo]) stFoo from ReachableVia.step ReachableVia.init
      (show add_artifact_to_repo init_repo descFoo = .ok stFoo from rfl))
    descFoo (by decide) "linux-64/foo-1.0-0" rfl "bin/foo" (by decide) (by decide)

/-- C2: the leaf-level membership check succeeds exactly when the bytes
of `artifact_id ++ "\n"` occur as a substring anywhere in the existing
blob content; consequently there is blob content and a new artifact id
that is not recorded as a whole line for which the check fires and
nothing is appended. -/
theorem c2_substring_check :
    (∀ aid c, mergeFile aid (some (.blob c)) = .ok none ↔ (aid ++ "\n").data <:+: c.data) ∧
    (mergeFile "r/name-1-0" (some (.blob "subdir/name-1-0\n")) = .ok none ∧
      "r/name-1-0".data ∉ contentLines "subdir/name-1-0\n") := by
  constructor
  · intro aid c
    rw [mergeFile_blob]
    constructor
    · intro h
      by_cases hin : bytesContains c (aid ++ "\n") = true
      · unfold bytesContains at hin
        exact of_decide_eq_true hin
      · rw [if_neg hin] at h
        exact absurd h (by simp)
    · intro h
      have hin : bytesContains c (aid ++ "\n") = true := by
        unfold bytesContains
        exact decide_eq_true h
      rw [if_pos hin]
  · exact ⟨rfl, by decide⟩

/-- Witness for C2's membership characterization at a concrete input. -/
theorem c2_witness :
    mergeFile "a" (some (.blob "xa\n")) = .ok none :=
  (c2_substring_check.1 "a" "xa\n").mpr (by decide)

/-- An addition creates, at each listed path absent from the previous
snapshot (and not strictly below another listed path), a fresh
single-record blob. -/
theorem add_fresh_path (st : RepoState) (info : Info) (st' : RepoState) (aid : String) (f : String)
    (hadd : add_artifact_to_repo st info = .ok st')
    (hid : info_to_artifact_id info = .ok aid)
    (hf : f ∈ info.files)
    (hpre : ∀ g ∈ info.files, splitPath g <+: splitPath f → splitPath g = splitPath f)
    (habs : st.head.tree.lookup (splitPath f) = none) :
    st'.head.tree.lookup (splitPath f) = some (.blob (aid ++ "\n")) := by
  obtain ⟨aid2, r, hid2, hm, hres, -⟩ := add_tree_rel st info st' hadd
  rw [hid] at hid2
  injection hid2 with haid
  subst haid
  have hfp := merge_file_path aid (splitPath f) _ _ r (trieWF_fromKeys info.files) hm
    (procFile_files info.files f hf hpre)
  rcases hfp with ⟨-, hnew⟩ | ⟨c, hc, -⟩
  · have hgoal : lookupOpt (some st'.head.tree) (splitPath f) = some (.blob (aid ++ "\n")) := by
      rw [hres]; exact hnew
    exact hgoal
  · rw [show lookupOpt (some st.head.tree) (splitPath f) =
      st.head.tree.lookup (splitPath f) from rfl, habs] at hc
    exact Option.noConfusion hc

/-- An addition appends `aid ++ "\n"` as the new last line of a listed
path's existing blob whenever the substring check does not fire. -/
theorem add_append_path (st : RepoState) (info : Info) (st' : RepoState) (aid : String)
    (f : String) (c : String)
    (hadd : add_artifact_to_repo st info = .ok st')
    (hid : info_to_artifact_id info = .ok aid)
    (hf : f ∈ info.files)
    (hpre : ∀ g ∈ info.files, splitPath g <+: splitPath f → splitPath g = splitPath f)
    (hold : st.head.tree.lookup (splitPath f) = some (.blob c))
    (hnc : ¬ (aid ++ "\n").data <:+: c.data) :
    st'.head.tree.lookup (splitPath f) = some (.blob (c ++ aid ++ "\n")) := by
  obtain ⟨aid2, r, hid2, hm, hres, -⟩ := add_tree_rel st info st' hadd
  rw [hid] at hid2
  injection hid2 with haid
  subst haid
  have hfp := merge_file_path aid (splitPath f) _ _ r (trieWF_fromKeys info.files) hm
    (procFile_files info.files f hf hpre)
  rcases hfp with ⟨habs2, -⟩ | ⟨c0, hc0, ⟨hin, -⟩ | ⟨-, hnew⟩⟩
  · rw [show lookupOpt (some st.head.tree) (splitPath f) =
      st.head.tree.lookup (splitPath f) from rfl, hold] at habs2
    exact Option.noConfusion habs2
  · rw [show lookupOpt (some st.head.tree) (splitPath f) =
      st.head.tree.lookup (splitPath f) from rfl, hold] at hc0
    injection hc0 with hc0e
    injection hc0e with hc0c
    rw [← hc0c] at hin
    unfold bytesContains at hin
    exact absurd (of_decide_eq_true hin) hnc
  · rw [show lookupOpt (some st.head.tree) (splitPath f) =
      st.head.tree.lookup (splitPath f) from rfl, hold] at hc0
    injection hc0 with hc0e
    injection hc0e with hc0c
    subst hc0c
    have hgoal : lookupOpt (some st'.head.tree) (splitPath f) =
        some (.blob (c ++ aid ++ "\n")) := by
      rw [hres]; exact hnew
    exact hgoal

/-- C7: a path of the added artifact at which the previous snapshot has
no entry maps, in the new snapshot, to a FileEntry whose content is
exactly the single line `artifact_id ++ "\n"` (under the caller contract
that no other listed path sits strictly above it). -/
theorem c7_fresh_path (st : RepoState) (info : Info) (st' : RepoState) (aid : String) (f : String)
    (hadd : add_artifact_to_repo st info = .ok st')
    (hid : info_to_artifact_id info = .ok aid)
    (hf : f ∈ info.files)
    (hpre : ∀ g ∈ info.files, splitPath g <+: splitPath f → splitPath g = splitPath f)
    (habs : st.head.tree.lookup (splitPath f) = none) :
    st'.head.tree.lookup (splitPath f) = some (.blob (aid ++ "\n")) :=
  add_fresh_path st info st' aid f hadd hid hf hpre habs

/-- Witness for C7 at the specification's scenario. -/
theorem c7_witness :
    stFoo.head.tree.lookup (splitPath "bin/foo") = some (.blob "linux-64/foo-1.0-0\n") :=
  c7_fresh_path init_repo descFoo stFoo "linux-64/foo-1.0-0" "bin/foo" rfl rfl
    (by decide) (by decide) rfl

/-- C10: an addition never removes or rewrites existing data: every path
resolving to a blob in the previous snapshot still resolves to a blob in
the new snapshot, whose content is byte-identical or the old content
with exactly the one line `artifact_id ++ "\n"` appended at the end. -/
theorem c10_append_only (st : RepoState) (info : Info) (st' : RepoState) (aid : String)
    (hadd : add_artifact_to_repo st info = .ok st')
    (hid : info_to_artifact_id info = .ok aid) :
    ∀ p c, st.head.tree.lookup p = some (.blob c) →
      st'.head.tree.lookup p = some (.blob c) ∨
      st'.head.tree.lookup p = some (.blob (c ++ aid ++ "\n")) := by
  intro p c hc
  obtain ⟨aid2, r, hid2, hm, hres, -⟩ := add_tree_rel st info st' hadd
  rw [hid] at hid2
  injection hid2 with haid
  subst haid
  have hpres := merge_blob_pres aid p _ _ r (trieWF_fromKeys info.files) hm c hc
  rcases hpres with hsame | ⟨-, happ⟩
  · left
    have hgoal : lookupOpt (some st'.head.tree) p = some (.blob c) := by
      rw [hres]; exact hsame
    exact hgoal
  · right
    have hgoal : lookupOpt (some st'.head.tree) p = some (.blob (c ++ aid ++ "\n")) := by
      rw [hres]; exact happ
    exact hgoal

/-- Witness for C10: the second addition of the scenario appends to
`bin/foo`. -/
theorem c10_witness :
    stFoo2.head.tree.lookup ["bin", "foo"] = some (.blob "linux-64/foo-1.0-0\n") ∨
    stFoo2.head.tree.lookup ["bin", "foo"] =
      some (.blob ("linux-64/foo-1.0-0\n" ++ "linux-64/foo-1.0-1" ++ "\n")) :=
  c10_append_only stFoo descFoo2 stFoo2 "linux-64/foo-1.0-1" rfl rfl
    ["bin", "foo"] "linux-64/foo-1.0-0\n" rfl

/-- C4: a subtree of the previous snapshot under which none of the
artifact's paths fall is, in the new snapshot, the byte-identical
persisted DirectoryEntry object (content addressing makes value equality
object identity). -/
theorem c4_subtree_reuse (st : RepoState) (info : Info) (st' : RepoState)
    (hadd : add_artifact_to_repo st info = .ok st') (d : List String) (es : EntryList)
    (hd : st.head.tree.lookup d = some (.tree es))
    (huntouched : ∀ f ∈ info.files, ¬ (d <+: splitPath f)) :
    st'.head.tree.lookup d = some (.tree es) := by
  obtain ⟨aid, r, hid, hm, hres, -⟩ := add_tree_rel st info st' hadd
  cases d with
  | nil =>
    have hfiles : info.files = [] := by
      cases hfe : info.files with
      | nil => rfl
      | cons g gs => exact absurd List.nil_prefix (huntouched g (by rw [hfe]; simp))
    replace hd : st.head.tree = .tree es := by
      rw [lookup_nil] at hd
      injection hd
    rw [hfiles, hd, show trieFromKeys [] = Trie.node false .nil from rfl] at hm
    rw [show mergeNode aid (some (.tree es)) (.node false .nil) =
      .ok (some (.tree es)) from rfl] at hm
    injection hm with hr
    rw [← hr] at hres
    replace hres : some st'.head.tree = some (Entry.tree es) := hres
    injection hres with h3
    rw [lookup_nil, h3]
  | cons s rest =>
    have hkb : keyBelow (trieFromKeys info.files) (s :: rest) = false := by
      rw [keyBelow_fromKeys]
      by_contra hcontra
      rw [Bool.not_eq_false, List.any_eq_true] at hcontra
      obtain ⟨g, hg, hgp⟩ := hcontra
      exact huntouched g hg (of_decide_eq_true hgp)
    have hframe := merge_frame aid rest s _ _ r (trieWF_fromKeys info.files) hm hkb
    have heq : lookupOpt (some st'.head.tree) (s :: rest) =
        lookupOpt (some st.head.tree) (s :: rest) := by
      rw [hres]; exact hframe
    replace heq : st'.head.tree.lookup (s :: rest) = st.head.tree.lookup (s :: rest) := heq
    rw [heq]
    exact hd

/-- Witness for C4: `lib` is untouched by the scenario's second
addition and remains the identical tree object. -/
theorem c4_witness :
    stFoo2.head.tree.lookup ["lib"] =
      some (.tree (.cons "libfoo.so" (.blob "linux-64/foo-1.0-0\n") .nil)) :=
  c4_subtree_reuse stFoo descFoo2 stFoo2 rfl ["lib"]
    (.cons "libfoo.so" (.blob "linux-64/foo-1.0-0\n") .nil) rfl (by decide)

/-- C8: an addition with an empty `files` list still creates exactly one
new commit, whose parent is the previous head and whose tree is the
identical tree object of the previous head commit. -/
theorem c8_empty_files (st : RepoState) (info : Info) (aid : String) (es : EntryList)
    (hid : info_to_artifact_id info = .ok aid)
    (hfiles : info.files = [])
    (htree : st.head.tree = .tree es) :
    add_artifact_to_repo st info =
      .ok ⟨.mk (.cons st.head .nil) st.head.tree ("Adding " ++ aid) (infoTimestamp info)⟩ := by
  have hmr : mergeRoot aid st.head.tree (trieFromKeys info.files) = .ok st.head.tree := by
    rw [hfiles, htree]
    rfl
  exact add_ok_of st info aid st.head.tree hid hmr

/-- C5: history is strictly linear and append-only: each successful
addition commits once with the pre-addition head as single parent, and
after N additions from a bootstrapped repository the walk from head
yields exactly N + 1 commits, everyone with one parent except the
bootstrap commit. -/
theorem c5_linear_history :
    (∀ st info st', add_artifact_to_repo st info = .ok st' →
      st'.head.parents = .cons st.head .nil ∧ st'.head.histLen = st.head.histLen + 1) ∧
    (∀ l st, ReachableVia l st → st.head.histLen = l.length + 1 ∧ LinearChain st.head) := by
  constructor
  · intro st info st' hadd
    obtain ⟨aid, root, hid, hmr, hst⟩ := add_ok_inv st info st' hadd
    subst hst
    exact ⟨rfl, rfl⟩
  · intro l st h
    induction h with
    | init => exact ⟨rfl, LinearChain.root⟩
    | step hrev hadd ih =>
      rename_i l0 st0 info st1
      obtain ⟨aid, root, hid, hmr, hst⟩ := add_ok_inv st0 info st1 hadd
      subst hst
      constructor
      · show st0.head.histLen + 1 = (l0 ++ [info]).length + 1
        rw [ih.1]
        simp
      · exact LinearChain.step ih.2

/-- Witness for C8: a no-op addition on top of the scenario's first
state. -/
theorem c8_witness :
    add_artifact_to_repo stFoo descEmpty =
      .ok ⟨.mk (.cons stFoo.head .nil) stFoo.head.tree ("Adding " ++ "linux-64/noarch-2.0-0")
        (infoTimestamp descEmpty)⟩ :=
  c8_empty_files stFoo descEmpty "linux-64/noarch-2.0-0"
    (.cons "bin" (.tree (.cons "foo" (.blob "linux-64/foo-1.0-0\n") .nil))
      (.cons "lib" (.tree (.cons "libfoo.so" (.blob "linux-64/foo-1.0-0\n") .nil)) .nil))
    rfl rfl rfl

/-- Witness for C5 after the two additions of the scenario. -/
theorem c5_witness : stFoo2.head.histLen = 3 ∧ LinearChain stFoo2.head :=
  c5_linear_history.2 [descFoo, descFoo2] stFoo2
    (show ReachableVia (([] ++ [descFoo]) ++ [descFoo2]) stFoo2 from
      ReachableVia.step
        (ReachableVia.step ReachableVia.init
          (show add_artifact_to_repo init_repo descFoo = .ok stFoo from rfl))
        (show add_artifact_to_repo stFoo descFoo2 = .ok stFoo2 from rfl))

/-- Well-formedness of every blob in every reachable snapshot, given the
data-model requirement that artifact ids contain no newline. -/
theorem reachable_wfblob : ∀ {l : List Info} {st : RepoState}, ReachableVia l st →
    (∀ info ∈ l, nlFreeId info) →
    ∀ p c, st.head.tree.lookup p = some (.blob c) → WFBlob c := by
  intro l st h
  induction h with
  | init =>
    intro _ p c hc
    cases p with
    | nil =>
      rw [show init_repo.head.tree = Entry.tree .nil from rfl, lookup_nil] at hc
      exact absurd hc (by simp)
    | cons s rest =>
      rw [show init_repo.head.tree = Entry.tree .nil from rfl, lookup_tree_cons] at hc
      simp [assocFind, lookupOpt] at hc
  | step hrev hadd ih =>
    rename_i l0 st0 info st1
    intro hnl p c hc
    obtain ⟨aid, r, hid, hm, hres, -⟩ := add_tree_rel st0 info st1 hadd
    have hc2 : lookupOpt (resolved r (some st0.head.tree)) p = some (.blob c) := by
      rw [← hres]; exact hc
    have hinv := merge_inverse aid p _ _ r (trieWF_fromKeys info.files) hm c hc2
    have hnlaid : '\n' ∉ aid.data := hnl info (by simp) aid hid
    have ih2 := ih fun i hi => hnl i (by simp [hi])
    rcases hinv with hold | ⟨c0, hold, hni, hceq⟩ | hceq
    · exact ih2 p c hold
    · rw [hceq]
      exact WFBlob_append c0 aid (ih2 p c0 hold) hnlaid hni
    · rw [hceq]
      exact WFBlob_single aid hnlaid

/-- The merged tree of re-adding an identical artifact equals the tree
produced by its first addition. -/
theorem add_idempotent (st : RepoState) (info : Info) (st1 : RepoState)
    (hadd : add_artifact_to_repo st info = .ok st1) :
    ∃ st2, add_artifact_to_repo st1 info = .ok st2 ∧ st2.head.tree = st1.head.tree := by
  obtain ⟨aid, r, hid, hm, hres, -⟩ := add_tree_rel st info st1 hadd
  have hwf := trieWF_fromKeys info.files
  have hFile : ∀ p, procFile (trieFromKeys info.files) p = true →
      ∃ c, lookupOpt (some st1.head.tree) p = some (.blob c) ∧
        bytesContains c (aid ++ "\n") = true := by
    intro p hp
    have hfp := merge_file_path aid p _ _ r hwf hm hp
    rcases hfp with ⟨-, hnew⟩ | ⟨c0, -, ⟨hin, hnew⟩ | ⟨-, hnew⟩⟩
    · refine ⟨aid ++ "\n", by rw [hres]; exact hnew, ?_⟩
      unfold bytesContains
      exact decide_eq_true List.infix_rfl
    · exact ⟨c0, by rw [hres]; exact hnew, hin⟩
    · refine ⟨c0 ++ aid ++ "\n", by rw [hres]; exact hnew, ?_⟩
      unfold bytesContains
      refine decide_eq_true ?_
      have hdata : (c0 ++ aid ++ "\n").data = c0.data ++ (aid ++ "\n").data := by
        simp [String.data_append]
      rw [hdata]
      exact (List.suffix_append c0.data _).isInfix
  have hDir : ∀ p, procDir (trieFromKeys info.files) p = true →
      ∃ es2, lookupOpt (some st1.head.tree) p = some (.tree es2) := by
    intro p hp
    obtain ⟨es2, hnew⟩ := merge_dir_path aid p _ _ r hwf hm hp
    exact ⟨es2, by rw [hres]; exact hnew⟩
  have hidem := merge_idem aid (trieFromKeys info.files) hwf (some st1.head.tree) hFile hDir
  rw [trieFromKeys_val info.files] at hidem
  simp only [Bool.false_eq_true, if_false] at hidem
  have hmr : mergeRoot aid st1.head.tree (trieFromKeys info.files) = .ok st1.head.tree := by
    rw [show mergeRoot aid st1.head.tree (trieFromKeys info.files) = (do
      match ← mergeNode aid (some st1.head.tree) (trieFromKeys info.files) with
      | some e => .ok e
      | none => .ok st1.head.tree) from rfl, hidem]
    rfl
  refine ⟨⟨.mk (.cons st1.head .nil) st1.head.tree ("Adding " ++ aid) (infoTimestamp info)⟩,
    add_ok_of st1 info aid st1.head.tree hid hmr, rfl⟩

/-- C3: in every reachable repository state (built from descriptors whose
ids obey the data model's no-newline requirement) no FileEntry contains
duplicate lines; and re-adding an identical artifact reproduces the
identical snapshot, so each of its paths holds the same blob content as
after the first addition. -/
theorem c3_no_duplicates :
    (∀ l st, ReachableVia l st → (∀ info ∈ l, nlFreeId info) →
      ∀ p c, st.head.tree.lookup p = some (.blob c) → (contentLines c).Nodup) ∧
    (∀ st info st1, add_artifact_to_repo st info = .ok st1 →
      ∃ st2, add_artifact_to_repo st1 info = .ok st2 ∧ st2.head.tree = st1.head.tree) := by
  constructor
  · intro l st h hnl p c hc
    exact WFBlob_nodup_lines c (reachable_wfblob h hnl p c hc)
  · exact add_idempotent

/-- Witness for C3 on the scenario's first state. -/
theorem c3_witness : (contentLines "linux-64/foo-1.0-0\n").Nodup :=
  c3_no_duplicates.1 [descFoo] stFoo
    (show ReachableVia ([] ++ [descFoo]) stFoo from ReachableVia.step ReachableVia.init
      (show add_artifact_to_repo init_repo descFoo = .ok stFoo from rfl))
    (by
      intro i hi aid hida
      have hie : i = descFoo := by simpa using hi
      subst hie
      replace hida : Except.ok "linux-64/foo-1.0-0" = Except.ok aid := hida
      injection hida with h2
      rw [← h2]
      decide)
    ["bin", "foo"] "linux-64/foo-1.0-0\n" rfl

/-- C6 (amended): if A1 and then A2 are added, both listing path P, P is
absent before the first addition, and A2's id followed by newline is not
a byte-substring of A1's id followed by newline (in particular the ids
are distinct), then the blob at P ends as the two lines A1-id, A2-id in
that order — the addition appended the new id as the last line without
reordering; A1's id is listed on an earlier line than A2's id. -/
theorem c6_append_order (st : RepoState) (info1 info2 : Info) (st1 st2 : RepoState)
    (a1 a2 f : String)
    (hadd1 : add_artifact_to_repo st info1 = .ok st1)
    (hadd2 : add_artifact_to_repo st1 info2 = .ok st2)
    (hid1 : info_to_artifact_id info1 = .ok a1)
    (hid2 : info_to_artifact_id info2 = .ok a2)
    (hf1 : f ∈ info1.files)
    (hpre1 : ∀ g ∈ info1.files, splitPath g <+: splitPath f → splitPath g = splitPath f)
    (hf2 : f ∈ info2.files)
    (hpre2 : ∀ g ∈ info2.files, splitPath g <+: splitPath f → splitPath g = splitPath f)
    (habs : st.head.tree.lookup (splitPath f) = none)
    (hnshadow : ¬ (a2 ++ "\n").data <:+: (a1 ++ "\n").data)
    (hnl1 : '\n' ∉ a1.data) (hnl2 : '\n' ∉ a2.data) :
    st2.head.tree.lookup (splitPath f) = some (.blob ((a1 ++ "\n") ++ a2 ++ "\n")) ∧
    listsBefore ((a1 ++ "\n") ++ a2 ++ "\n") a1 a2 := by
  have h1 := add_fresh_path st info1 st1 a1 f hadd1 hid1 hf1 hpre1 habs
  have h2 := add_append_path st1 info2 st2 a2 f (a1 ++ "\n") hadd2 hid2 hf2 hpre2 h1 hnshadow
  refine ⟨h2, ?_⟩
  have hlines : contentLines ((a1 ++ "\n") ++ a2 ++ "\n") = [a1.data, a2.data] := by
    refine contentLines_wf _ [a1.data, a2.data] ?_ ?_
    · intro x hx
      simp only [List.mem_cons, List.not_mem_nil, or_false] at hx
      rcases hx with hx | hx
      · rw [hx]; exact hnl1
      · rw [hx]; exact hnl2
    · simp [String.data_append]
  exact ⟨0, 1, by omega, by rw [hlines]; rfl, by rw [hlines]; rfl⟩

/-- C6, claim as stated refuted: adding `subdir/name-1-0` and then
`r/name-1-0`, distinct ids both listing path `p`, leaves a blob at `p`
that does not list the second id on any line at all, so the first id is
not on an earlier line than the second's. -/
theorem c6_counterexample :
    add_artifact_to_repo init_repo descA1 = .ok stA1 ∧
    add_artifact_to_repo stA1 descA2 = .ok stA2 ∧
    info_to_artifact_id descA1 = .ok "subdir/name-1-0" ∧
    info_to_artifact_id descA2 = .ok "r/name-1-0" ∧
    "subdir/name-1-0" ≠ "r/name-1-0" ∧
    "p" ∈ descA1.files ∧ "p" ∈ descA2.files ∧
    stA2.head.tree.lookup (splitPath "p") = some (.blob "subdir/name-1-0\n") ∧
    ¬ listsBefore "subdir/name-1-0\n" "subdir/name-1-0" "r/name-1-0" := by
  refine ⟨rfl, rfl, rfl, rfl, by decide, by decide, by decide, rfl, ?_⟩
  rintro ⟨i, j, hij, hi, hj⟩
  have hlines : contentLines "subdir/name-1-0\n" = ["subdir/name-1-0".data] := by decide
  rw [hlines] at hj
  cases j with
  | zero => omega
  | succ j2 =>
    cases j2 <;> simp [List.get?] at hj

/-- Witness for the amended C6: two fresh ids on one path, appended in
order. -/
theorem c6_witness :
    stFoo2.head.tree.lookup (splitPath "bin/foo") =
      some (.blob (("linux-64/foo-1.0-0" ++ "\n") ++ "linux-64/foo-1.0-1" ++ "\n")) ∧
    listsBefore (("linux-64/foo-1.0-0" ++ "\n") ++ "linux-64/foo-1.0-1" ++ "\n")
      "linux-64/foo-1.0-0" "linux-64/foo-1.0-1" :=
  c6_append_order init_repo descFoo descFoo2 stFoo stFoo2
    "linux-64/foo-1.0-0" "linux-64/foo-1.0-1" "bin/foo"
    rfl rfl rfl rfl (by decide) (by decide) (by decide) (by decide) rfl
    (by decide) (by decide) (by decide)

/-- C9 (amended): a descriptor missing a required identity field makes
the addition fail before anything is written — the repository state is
untouched and no commit is created — but the error propagates out of the
processing loop, so the remaining artifacts of the batch are not
processed and the run stops with the repository at the last completed
addition. -/
theorem c9_malformed_aborts :
    (∀ info e, info_to_artifact_id info = .error e →
      ∀ st, add_artifact_to_repo st info = .error e) ∧
    (∀ st info rest e, add_artifact_to_repo st info = .error e →
      processArtifacts st (info :: rest) = (st, some e)) := by
  constructor
  · intro info e hid st
    rw [show add_artifact_to_repo st info = (do
      let artifact_id ← info_to_artifact_id info
      let root ← match mergeRoot artifact_id st.head.tree (trieFromKeys info.files) with
        | .ok r => .ok r
        | .error e => .error (AddError.mergeError e)
      .ok (⟨.mk (.cons st.head .nil) root ("Adding " ++ artifact_id) (infoTimestamp info)⟩ :
        RepoState)) from rfl, hid]
    rfl
  · intro st info rest e h
    rw [show processArtifacts st (info :: rest) =
      (match add_artifact_to_repo st info with
        | .ok st' => processArtifacts st' rest
        | .error e => (st, some e)) from rfl, h]

/-- C9, claim as stated refuted: in the batch `[descBad, descFoo]` the
first descriptor is missing its `name` field; its addition fails before
any write (head still the bootstrap commit), but the second, perfectly
processable artifact is never processed — the loop aborts instead of
continuing. -/
theorem c9_counterexample :
    processArtifacts init_repo [descBad, descFoo] =
      (init_repo, some (AddError.keyError "name")) ∧
    add_artifact_to_repo init_repo descFoo = .ok stFoo ∧
    stFoo.head.histLen = 2 ∧ init_repo.head.histLen = 1 :=
  ⟨rfl, rfl, rfl, rfl⟩

/-- Witness for the amended C9. -/
theorem c9_witness :
    processArtifacts init_repo [descBad, descA1] =
      (init_repo, some (AddError.keyError "name")) :=
  c9_malformed_aborts.2 init_repo descBad [descA1] (AddError.keyError "name") rfl
